import Mathlib

/-!
# Isomorphism filter (`opisomorph.cpp`): the `-s` / `-v` operator of OpenBabel

A shallow embedding of `src/ops/opisomorph.cpp`:

* `AddDataToSubstruct`, `ExtractSubstruct`, `MakeQueriesFromMolInFile` and
  `OpNewS::Do` are translated from the source, statement by statement;
* the collaborators that the file only calls (the molecule class, the
  tokenizer, the file and SMILES readers, the SMARTS matcher and the
  isomorphism mapper) are either modelled from the specification or taken
  as fields of an environment `Env`.

Undefined behaviour of the C++ code (dereferencing a null pointer, reading
`vec[0]` of an empty vector) is the result `none`.
-/

set_option autoImplicit false

namespace OpenBabel

/-! ## Data model -/

/-- An `OBPairData` object: an attribute name and its value. -/
abbrev OBPairData := String × String

/-- An atom: its element, its coordinates (carried, never computed with; in
fixed-point units) and the generic data attached to it. -/
structure OBAtom where
  atomicNum : Nat
  x : Int
  y : Int
  z : Int
  data : List OBPairData
deriving DecidableEq, Repr

/-- A bond between the atoms with 1-based indices `beginIdx` and `endIdx`. -/
structure OBBond where
  beginIdx : Nat
  endIdx : Nat
  order : Nat
  data : List OBPairData
deriving DecidableEq, Repr

/-- The molecular graph: atom `i` (1-based) is `atoms[i-1]`. -/
structure OBMol where
  atoms : List OBAtom
  bonds : List OBBond
deriving DecidableEq, Repr

/-- Modelled from the spec: `OBBase::SetData` is not in the source file. The
specification describes attachment as last write wins with no duplicated
entry: an entry of the same attribute name is replaced by the new pair. -/
def SetData (d : List OBPairData) (attr value : String) : List OBPairData :=
  d.filter (fun p => p.1 != attr) ++ [(attr, value)]

/-- The call `pAtom->SetData(dp)` with `dp = (attr, value)`. -/
def OBAtom.SetData (a : OBAtom) (attr value : String) : OBAtom :=
  { a with data := OpenBabel.SetData a.data attr value }

/-- The call `pBond->SetData(dp)` with `dp = (attr, value)`. -/
def OBBond.SetData (b : OBBond) (attr value : String) : OBBond :=
  { b with data := OpenBabel.SetData b.data attr value }

/-- Modelled from the spec: `OBMol::NumAtoms` is not in the source file; it is the
number of atoms of the graph. -/
def OBMol.NumAtoms (m : OBMol) : Nat := m.atoms.length

/-- Modelled from the spec: `OBMol::NumHvyAtoms` is not in the source file; the
heavy atoms are the atoms that are not hydrogen. -/
def OBMol.NumHvyAtoms (m : OBMol) : Nat :=
  (m.atoms.filter (fun a => a.atomicNum != 1)).length

/-- Modelled from the spec: `OBMol::GetAtom` is not in the source file; atoms are
enumerated by 1-based index and an index that resolves to no atom gives the
null pointer. A non-null atom pointer is the 0-based position of the atom. -/
def OBMol.GetAtom (m : OBMol) (idx : Int) : Option Nat :=
  if idx < 1 ∨ idx > (m.NumAtoms : Int) then none else some (idx - 1).toNat

/-- Update through an atom pointer: `pAtom->SetData(dp)` inside the molecule. -/
def OBMol.setAtomData (m : OBMol) (pAtom : Nat) (attr value : String) : OBMol :=
  { m with atoms := m.atoms.modify (fun a => a.SetData attr value) pAtom }

/-- Renumbering of an atom index after the atom with index `d` is gone. -/
def shiftIdx (d i : Nat) : Nat := if i > d then i - 1 else i

/-- Modelled from the spec: `OBMol::DeleteAtom` is not in the source file;
deleting an atom removes it together with every bond incident to it, and the
atoms above it move down by one index. -/
def OBMol.DeleteAtom (m : OBMol) (pAtom : Nat) : OBMol :=
  { atoms := m.atoms.eraseIdx pAtom
    bonds := (m.bonds.filter (fun b => b.beginIdx != pAtom + 1 && b.endIdx != pAtom + 1)).map
      (fun b => { b with beginIdx := shiftIdx (pAtom + 1) b.beginIdx
                         endIdx := shiftIdx (pAtom + 1) b.endIdx }) }

/-! ## `AddDataToSubstruct` (lines 35-67) -/

/-- The first loop: `for(int j=0; j<atomIdxs.size(); ++j)`, a null atom is
skipped with `continue`. -/
def AddDataToSubstruct.atomLoop (attr value : String) : List Int → OBMol → OBMol
  | [], m => m
  | idx :: rest, m =>
    match m.GetAtom idx with
    | none => AddDataToSubstruct.atomLoop attr value rest m
    | some pAtom =>
      AddDataToSubstruct.atomLoop attr value rest (m.setAtomData pAtom attr value)

/-- The second loop, over all bonds of the molecule: data is added to a bond
when `count` finds both its begin and its end atom index in `atomIdxs`. Atom
indices are far below `2^31`, so comparing an `int` of the list with the
`unsigned` index of a bond compares the two numbers. -/
def AddDataToSubstruct.bondLoop (atomIdxs : List Int) (attr value : String)
    (bonds : List OBBond) : List OBBond :=
  bonds.map (fun pBond =>
    if atomIdxs.count (pBond.beginIdx : Int) != 0 && atomIdxs.count (pBond.endIdx : Int) != 0
    then pBond.SetData attr value else pBond)

/-- `AddDataToSubstruct(pmol, atomIdxs, attribute, value)`: the returned flag and
the molecule after the call. -/
def AddDataToSubstruct (pmol : OBMol) (atomIdxs : List Int) (attr value : String) :
    Bool × OBMol :=
  let m := AddDataToSubstruct.atomLoop attr value atomIdxs pmol
  (true, { m with bonds := AddDataToSubstruct.bondLoop atomIdxs attr value m.bonds })

/-! ## `ExtractSubstruct` (lines 73-80) -/

/-- The loop `for(int i = pmol->NumAtoms(); i; --i)`: atom `i` is deleted when
`find` does not see `i` in `atomIdxs`. `DeleteAtom` on a null pointer is
undefined. -/
def ExtractSubstruct.loop (atomIdxs : List Int) : Nat → OBMol → Option OBMol
  | 0, m => some m
  | i + 1, m =>
    if ((i + 1 : Nat) : Int) ∈ atomIdxs then ExtractSubstruct.loop atomIdxs i m
    else
      match m.GetAtom ((i + 1 : Nat) : Int) with
      | none => none
      | some pAtom => ExtractSubstruct.loop atomIdxs i (m.DeleteAtom pAtom)

/-- `ExtractSubstruct(pmol, atomIdxs)`: the returned flag and the molecule after
the call. -/
def ExtractSubstruct (pmol : OBMol) (atomIdxs : List Int) : Option (Bool × OBMol) :=
  match ExtractSubstruct.loop atomIdxs pmol.NumAtoms pmol with
  | none => none
  | some m => some (true, m)

/-! ## Collaborators of `OpNewS::Do` -/

/-- The delimiters of `tokenize`: blank, tab, newline, carriage return. -/
def isDelim (c : Char) : Bool := c == ' ' || c == '\t' || c == '\n' || c == '\r'

/-- Scanning loop of the tokenizer: `cur` is the current field, reversed. -/
def tokenize.go : List Char → List Char → List String
  | [], cur => if cur.isEmpty then [] else [String.mk cur.reverse]
  | c :: cs, cur =>
    if isDelim c then
      if cur.isEmpty then tokenize.go cs [] else String.mk cur.reverse :: tokenize.go cs []
    else tokenize.go cs (c :: cur)

/-- Modelled from the spec: `tokenize` is not in the source file; the parameter
text is cut into its whitespace-separated fields (no field is empty). -/
def tokenize (txt : String) : List String := tokenize.go txt.toList []

/-- A compiled query, the result of `CompileMoleculeQuery` on a pattern molecule. -/
structure OBQuery where
  pattern : OBMol
deriving DecidableEq, Repr

/-- Modelled from the spec: `CompileMoleculeQuery` is not in the source file; each
molecule of the pattern file is compiled into one query alternative. -/
def CompileMoleculeQuery (patternMol : OBMol) : OBQuery := ⟨patternMol⟩

/-- One mapping of the isomorphism mapper: pairs (query atom, 0-based atom of the
queried molecule). -/
abbrev Mapping := List (Nat × Nat)

/-- The out-of-scope collaborators, as functions of their inputs.
* `readFile name`: `FormatFromExt`, `SetInFormat` and `ReadFile` on the file;
  `none` when one of them fails, else the first molecule read and the molecules
  that the following calls of `Read` deliver;
* `readSmiles s`: `conv.SetInFormat("smi")` and `conv.ReadString(&patmol, s)`;
* `smartsInit s`: `sp.Init(s)`;
* `smartsMapList s mol`: the map list of the pattern `s` on `mol`;
* `MapUnique q mol`: the mappings that `mapper->MapUnique(pmol, mappings)` finds. -/
structure Env where
  readFile : String → Option (OBMol × List OBMol)
  readSmiles : String → Option OBMol
  smartsInit : String → Bool
  smartsMapList : String → OBMol → List (List Int)
  MapUnique : OBQuery → OBMol → List Mapping

/-- Modelled from the spec: `OBSmartsPattern::Match` is not in the source file; the
matcher produces the list of matched-atom lists, one per match, and reports a
match when that list is not empty. -/
def Env.smartsMatch (env : Env) (pattern : String) (mol : OBMol) : Bool :=
  !(env.smartsMapList pattern mol).isEmpty

/-- The part of `OBConversion` that `Do` reads and writes: `IsLast()`, the flag
set by `SetOneObjectOnly()` and the general options written by `AddOption`. -/
structure OBConversion where
  IsLast : Bool
  OneObjectOnly : Bool
  genOptions : List (String × String)
deriving DecidableEq, Repr

/-- Modelled from the spec: `OBConversion::SetOneObjectOnly` is not in the source
file; it tells the caller to stop processing further graphs. -/
def OBConversion.SetOneObjectOnly (c : OBConversion) : OBConversion :=
  { c with OneObjectOnly := true }

/-- Modelled from the spec: `OBConversion::AddOption` is not in the source file;
`pConv->AddOption(ID, OBConversion::GENOPTIONS, "")` clears the parameter text
kept under `ID`. -/
def OBConversion.AddOption (c : OBConversion) (ID : String) : OBConversion :=
  { c with genOptions := (ID, "") :: c.genOptions.filter (fun p => p.1 != ID) }

/-! ## `MakeQueriesFromMolInFile` (lines 84-105) -/

/-- The `do ... while(patternConv.Read(&patternMol))` loop over the molecules of
the file: each one overwrites `*pnAtoms` and appends its compiled query. -/
def MakeQueriesFromMolInFile.loop : List OBMol → List OBQuery → Nat → List OBQuery × Nat
  | [], queries, nAtoms => (queries, nAtoms)
  | patternMol :: rest, queries, _ =>
    MakeQueriesFromMolInFile.loop rest (queries ++ [CompileMoleculeQuery patternMol])
      patternMol.NumHvyAtoms

/-- `MakeQueriesFromMolInFile(queries, filename, pnAtoms)`: the returned flag, the
query list and `*pnAtoms` after the call. -/
def MakeQueriesFromMolInFile (env : Env) (queries : List OBQuery) (filename : String)
    (nAtoms : Nat) : Bool × List OBQuery × Nat :=
  if filename.toList.isEmpty || !(filename.toList.contains '.') then (false, queries, nAtoms)
  else
    match env.readFile filename with
    | none => (false, queries, nAtoms)
    | some (patternMol, rest) =>
      if patternMol.NumAtoms == 0 then (false, queries, nAtoms)
      else
        let r := MakeQueriesFromMolInFile.loop (patternMol :: rest) queries nAtoms
        (true, r.1, r.2)

/-! ## `OpNewS::Do` (lines 160-306) -/

/-- The static variables of `Do`: the fields of the parameter text, the inversion
flag, the required atom count (non-zero for exact matches) and the queries made
from a pattern file. -/
structure Statics where
  vec : List String
  inv : Bool
  nPatternAtoms : Nat
  queries : List OBQuery
deriving DecidableEq, Repr

/-- The static variables before the first call. -/
def Statics.initial : Statics := ⟨[], false, 0, []⟩

/-- An invocation of a matcher, recorded in the order of execution: `MapUnique` on
the query with index `imol`, `sp.Init` or `sp.Match` on a pattern text. -/
inductive Call where
  | MapUnique (imol : Nat)
  | Init (pattern : String)
  | Match (pattern : String)
deriving DecidableEq, Repr

/-- What one call of `Do` leaves behind: the returned flag, the molecule (`none`
after `delete pmol`), the static variables, the conversion object and the
matcher invocations made. -/
structure DoResult where
  ret : Bool
  pmol : Option OBMol
  statics : Statics
  pConv : Option OBConversion
  calls : List Call
deriving DecidableEq, Repr

/-- Outcome of the set-up block: it returned from `Do`, or execution goes on with
the static variables and the conversion object as given. -/
inductive SetUp where
  | returned (r : DoResult)
  | goesOn (st : Statics) (pConv : Option OBConversion)
deriving DecidableEq, Repr

/-- Lines 178-215, `if(!txt.empty())`: the set-up on the first call. The result
is `none` where the code reads `vec[0]` of an empty vector or calls a method
of a null `pConv`. -/
def OpNewS.setUp (env : Env) (ID : String) (st : Statics) (txt : String)
    (pConv : Option OBConversion) : Option SetUp :=
  if txt.toList.isEmpty then some (.goesOn st pConv)
  else
    match tokenize txt with
    | [] => none
    | vec0 :: rest =>
      let tilde := vec0.toList.head? == some '~'
      let inv := if tilde then true else ID.toList.head? == some 'v'
      let vec0 := if tilde then String.mk (vec0.toList.drop 1) else vec0
      let vec := vec0 :: rest
      let made := MakeQueriesFromMolInFile env st.queries vec0 st.nPatternAtoms
      let queries := made.2.1
      let nPatternAtoms := made.2.2
      if vec.length > 1 && vec[1]? == some "exact" then
        if queries.isEmpty then
          match env.readSmiles vec0 with
          | none =>
            match pConv with
            | none => none
            | some conv =>
              some (.returned ⟨false, none, ⟨vec, inv, nPatternAtoms, queries⟩,
                some conv.SetOneObjectOnly, []⟩)
          | some patmol =>
            match pConv with
            | none => none
            | some conv =>
              some (.goesOn ⟨vec, inv, patmol.NumHvyAtoms, queries⟩ (some (conv.AddOption ID)))
        else
          match pConv with
          | none => none
          | some conv => some (.goesOn ⟨vec, inv, nPatternAtoms, queries⟩ (some (conv.AddOption ID)))
      else
        match pConv with
        | none => none
        | some conv => some (.goesOn ⟨vec, inv, 0, queries⟩ (some (conv.AddOption ID)))

/-- State of the matching block at its end: the SMARTS text did not compile, or
the variables `match`, `imol` and `pMappedAtoms` (`none` for `NULL`). -/
inductive Matching where
  | initFailed (calls : List Call)
  | done (isMatch : Bool) (imol : Nat) (pMappedAtoms : Option (List (List Int)))
      (calls : List Call)
deriving DecidableEq, Repr

/-- Lines 240-247: every mapping becomes the list of its second components plus 1. -/
def toAtomVecs (mappings : List Mapping) : List (List Int) :=
  mappings.map (fun ita => ita.map (fun itb => ((itb.2 + 1 : Nat) : Int)))

/-- Lines 231-251: the loop over the queries, `imol` counting them; it stops with
`break` at the first query that has a mapping. -/
def OpNewS.queryLoop (env : Env) (pmol : OBMol) : List OBQuery → Nat → List Call → Matching
  | [], imol, calls => .done false imol none calls
  | q :: rest, imol, calls =>
    let mappings := env.MapUnique q pmol
    if !mappings.isEmpty then
      .done true imol (some (toAtomVecs mappings)) (calls ++ [.MapUnique imol])
    else OpNewS.queryLoop env pmol rest (imol + 1) (calls ++ [.MapUnique imol])

/-- Lines 227-269: matching against the queries of the file when there are any,
else against the SMARTS text `vec[0]`. -/
def OpNewS.matching (env : Env) (st : Statics) (pmol : OBMol) : Option Matching :=
  if !st.queries.isEmpty then some (OpNewS.queryLoop env pmol st.queries 0 [])
  else
    match st.vec with
    | [] => none
    | vec0 :: _ =>
      if !env.smartsInit vec0 then some (.initFailed [.Init vec0])
      else if env.smartsMatch vec0 pmol then
        some (.done true 0 (some (env.smartsMapList vec0 pmol)) [.Init vec0, .Match vec0])
      else some (.done false 0 none [.Init vec0, .Match vec0])

/-- Lines 294-295: `AddDataToSubstruct` for each match, in order. -/
def OpNewS.colorLoop (value : String) : List (List Int) → OBMol → OBMol
  | [], m => m
  | iter :: rest, m => OpNewS.colorLoop value rest (AddDataToSubstruct m iter "color" value).2

/-- Lines 279-297: the transform block, entered with its condition true. -/
def OpNewS.transform (st : Statics) (pmol : OBMol) (imol : Nat)
    (pMappedAtoms : Option (List (List Int))) (pConv : Option OBConversion)
    (calls : List Call) : Option DoResult :=
  match pMappedAtoms with
  | none => none
  | some mapped =>
    if st.vec[1]? == some "extract" then
      match mapped with
      | [] => none
      | first :: _ =>
        match ExtractSubstruct pmol first with
        | none => none
        | some r => some ⟨true, some r.2, st, pConv, calls⟩
    else
      let imol := if imol > st.vec.length - 2 then st.vec.length - 2 else imol
      match st.vec[imol + 1]? with
      | none => none
      | some value => some ⟨true, some (OpNewS.colorLoop value mapped pmol), st, pConv, calls⟩

/-- Lines 299-305: the queries are released when the conversion is at its last
object. -/
def OpNewS.tearDown (st : Statics) (pConv : Option OBConversion) : Statics :=
  match pConv with
  | none => st
  | some conv => if conv.IsLast then { st with queries := [] } else st

/-- Lines 217-306: the part of `Do` after the set-up block, run for every
molecule with the static variables `st`. -/
def OpNewS.perMolecule (env : Env) (st : Statics) (pmol : OBMol)
    (pConv : Option OBConversion) : Option DoResult :=
  if st.nPatternAtoms != 0 && pmol.NumHvyAtoms != st.nPatternAtoms then
    some ⟨false, some pmol, st, pConv, []⟩
  else
    match OpNewS.matching env st pmol with
    | none => none
    | some (.initFailed calls) =>
      match pConv with
      | none => none
      | some conv => some ⟨false, none, st, some conv.SetOneObjectOnly, calls⟩
    | some (.done isMatch imol pMappedAtoms calls) =>
      if (!isMatch && !st.inv) || (isMatch && st.inv) then
        some ⟨false, none, st, pConv, calls⟩
      else if !st.inv && st.vec.length ≥ 2 && st.vec[1]? != some "" && st.nPatternAtoms == 0 then
        OpNewS.transform st pmol imol pMappedAtoms pConv calls
      else
        some ⟨true, some pmol, OpNewS.tearDown st pConv, pConv, calls⟩

/-- `OpNewS::Do(pOb, OptionText, pmap, pConv)` for the operator with identity `ID`
on a molecule `pmol`, with `txt` the text found in the option map under `ID` and
`st` the static variables at entry. -/
def OpNewS.Do (env : Env) (ID : String) (st : Statics) (pmol : OBMol) (txt : String)
    (pConv : Option OBConversion) : Option DoResult :=
  match OpNewS.setUp env ID st txt pConv with
  | none => none
  | some (.returned r) => some r
  | some (.goesOn st pConv) => OpNewS.perMolecule env st pmol pConv

/-! ## Notions of the specification -/

/-- The elements of a list of atoms whose 1-based index occurs in `atomIdxs`, in
their order; the first element has index `start + 1`. -/
def keepListed (atomIdxs : List Int) : Nat → List OBAtom → List OBAtom
  | _, [] => []
  | start, a :: rest =>
    if ((start + 1 : Nat) : Int) ∈ atomIdxs then a :: keepListed atomIdxs (start + 1) rest
    else keepListed atomIdxs (start + 1) rest

/-- The match set of the pattern on a molecule, in the words of the
specification: with queries from a file, the 1-based mappings of the first
alternative that has a mapping; else the map list of the SMARTS text `vec[0]`. -/
def matchSet (env : Env) (st : Statics) (G : OBMol) : List (List Int) :=
  if st.queries.isEmpty then
    match st.vec with
    | [] => []
    | vec0 :: _ => env.smartsMapList vec0 G
  else
    match st.queries.find? (fun q => !(env.MapUnique q G).isEmpty) with
    | none => []
    | some q => toAtomVecs (env.MapUnique q G)

/-- The pattern has a match on the molecule: its match set is not empty. -/
def matched (env : Env) (st : Statics) (G : OBMol) : Bool := !(matchSet env st G).isEmpty

/-- The pattern of the static variables compiles: there are queries from a
file, or `vec[0]` is accepted by `sp.Init`. -/
def patternCompiles (env : Env) (st : Statics) : Prop :=
  st.queries ≠ [] ∨ ∃ vec0 rest, st.vec = vec0 :: rest ∧ env.smartsInit vec0 = true

/-- The new index of the atom with 1-based index `j` when it is retained: the
number of indices in `1..j` that occur in `atomIdxs`. -/
def newIdx (atomIdxs : List Int) (j : Nat) : Nat :=
  ((List.range j).filter (fun k => decide (((k + 1 : Nat) : Int) ∈ atomIdxs))).length

/-- A bond with both atom indices renumbered by `f`. -/
def OBBond.reindex (f : Nat → Nat) (b : OBBond) : OBBond :=
  { b with beginIdx := f b.beginIdx, endIdx := f b.endIdx }

/-- While the deletion loop still has the indices `1..i` to look at: an atom
index `j` of a bond has survived when it is above `i` or occurs in the list
(index 0 names no atom and is never met by the loop). -/
def survives (atomIdxs : List Int) (i j : Nat) : Bool :=
  decide (j = 0) || decide (i < j) || decide ((j : Int) ∈ atomIdxs)

/-- The index that the atom `j` has once the loop has dealt with `1..i`. -/
def idxAfter (atomIdxs : List Int) (i j : Nat) : Nat :=
  newIdx atomIdxs (min i j) + (j - i)

/-- The matcher invocations recorded at the end of the matching block. -/
def Matching.calls : Matching → List Call
  | .initFailed calls => calls
  | .done _ _ _ calls => calls

/-- Field 0 as stored by the set-up: one leading `~` removed. -/
def stripTilde (f0 : String) : String :=
  if f0.toList.head? == some '~' then String.mk (f0.toList.drop 1) else f0

/-! ## Test fixtures: molecules and a small environment -/

/-- An atom of the given element at the given place, with no data. -/
def mkAtom (atomicNum : Nat) (x y : Int) : OBAtom := ⟨atomicNum, x, y, 0, []⟩

/-- A bond of the given order with no data. -/
def mkBond (b e order : Nat) : OBBond := ⟨b, e, order, []⟩

/-- Benzene: six aromatic carbons in a ring (hydrogens implicit). -/
def benzene : OBMol :=
  { atoms := [mkAtom 6 14 0, mkAtom 6 7 12, mkAtom 6 (-7) 12, mkAtom 6 (-14) 0,
              mkAtom 6 (-7) (-12), mkAtom 6 7 (-12)]
    bonds := [mkBond 1 2 5, mkBond 2 3 5, mkBond 3 4 5, mkBond 4 5 5, mkBond 5 6 5,
              mkBond 6 1 5] }

/-- Toluene: the benzene ring with a methyl carbon on atom 1; 7 heavy atoms. -/
def toluene : OBMol :=
  { atoms := benzene.atoms ++ [mkAtom 6 28 0]
    bonds := benzene.bonds ++ [mkBond 1 7 1] }

/-- Water with explicit hydrogens: a graph without carbon. -/
def water : OBMol :=
  { atoms := [mkAtom 8 0 0, mkAtom 1 8 6, mkAtom 1 (-8) 6]
    bonds := [mkBond 1 2 1, mkBond 1 3 1] }

/-- Molecular hydrogen: two explicit hydrogen atoms, no heavy atom. -/
def dihydrogen : OBMol :=
  { atoms := [mkAtom 1 0 0, mkAtom 1 7 0]
    bonds := [mkBond 1 2 1] }

/-- Methane with implicit hydrogens: one carbon. -/
def methane : OBMol := { atoms := [mkAtom 6 0 0], bonds := [] }

/-- Ethanol with implicit hydrogens: C, C, O. -/
def ethanol : OBMol :=
  { atoms := [mkAtom 6 0 0, mkAtom 6 10 0, mkAtom 8 20 0]
    bonds := [mkBond 1 2 1, mkBond 2 3 1] }

/-- A pattern matcher for the fixtures: the pattern atoms are matched, in order,
against the first atoms of the molecule by atomic number. -/
def prefixMatch (pattern mol : OBMol) : Bool :=
  pattern.atoms.length ≤ mol.atoms.length &&
  (pattern.atoms.map (fun a => a.atomicNum)) ==
    ((mol.atoms.take pattern.atoms.length).map (fun a => a.atomicNum))

/-- The patterns that the fixture environment knows by their text. -/
def demoPatterns : List (String × OBMol) :=
  [("c1ccccc1", benzene), ("C", methane), ("[H][H]", dihydrogen), ("CCO", ethanol)]

/-- The pattern files of the fixture environment. -/
def demoFiles : List (String × OBMol × List OBMol) :=
  [("ring.mol", benzene, []), ("two.sdf", benzene, [ethanol]),
   ("three.sdf", dihydrogen, [benzene, ethanol]), ("sizes.sdf", benzene, [dihydrogen])]

/-- A small environment for the concrete scenarios: texts and files are looked up
in the tables above and both matchers use `prefixMatch`. -/
def demoEnv : Env where
  readFile := fun name => demoFiles.lookup name
  readSmiles := fun s => demoPatterns.lookup s
  smartsInit := fun s => (demoPatterns.lookup s).isSome
  smartsMapList := fun s mol =>
    match demoPatterns.lookup s with
    | none => []
    | some pat =>
      if prefixMatch pat mol then [(List.range pat.atoms.length).map (fun k => ((k + 1 : Nat) : Int))]
      else []
  MapUnique := fun q mol =>
    if prefixMatch q.pattern mol then [(List.range q.pattern.atoms.length).map (fun k => (k, k))]
    else []

/-- A conversion object in the middle of a stream. -/
def demoConv : OBConversion := ⟨false, false, []⟩

/-- A conversion object at the last graph of the stream. -/
def lastConv : OBConversion := ⟨true, false, []⟩

/-- A 10-atom graph: a five-membered carbon ring on the even indices, each ring
atom carrying one carbon on the odd index before it. -/
def pentamethylcyclopentane : OBMol :=
  { atoms := [mkAtom 6 20 0, mkAtom 6 10 0, mkAtom 6 6 19, mkAtom 6 3 10, mkAtom 6 (-16) 12,
              mkAtom 6 (-8) 6, mkAtom 6 (-16) (-12), mkAtom 6 (-8) (-6), mkAtom 6 6 (-19),
              mkAtom 6 3 (-10)]
    bonds := [mkBond 2 4 1, mkBond 4 6 1, mkBond 6 8 1, mkBond 8 10 1, mkBond 10 2 1,
              mkBond 1 2 1, mkBond 3 4 1, mkBond 5 6 1, mkBond 7 8 1, mkBond 9 10 1] }

/-- The five-membered ring left by the extraction from the graph above. -/
def cyclopentane : OBMol :=
  { atoms := [mkAtom 6 10 0, mkAtom 6 3 10, mkAtom 6 (-8) 6, mkAtom 6 (-8) (-6),
              mkAtom 6 3 (-10)]
    bonds := [mkBond 1 2 1, mkBond 2 3 1, mkBond 3 4 1, mkBond 4 5 1, mkBond 5 1 1] }

/-! ## Lemmas on `ExtractSubstruct` -/

theorem keepListed_append (L : List Int) (xs ys : List OBAtom) (s : Nat) :
    keepListed L s (xs ++ ys) = keepListed L s xs ++ keepListed L (s + xs.length) ys := by
  induction xs generalizing s with
  | nil => simp [keepListed]
  | cons a as ih =>
    have hs : s + 1 + as.length = s + (as.length + 1) := by omega
    show keepListed L s (a :: (as ++ ys)) = _
    rw [keepListed, keepListed, ih (s + 1), hs, List.length_cons]
    split <;> simp

/-- Invariant of the deletion loop: below `i` only the listed atoms stay, from
`i` on nothing has been touched; the loop never meets a null pointer. -/
theorem extract_loop_spec (L : List Int) (i : Nat) (m : OBMol) (hi : i ≤ m.atoms.length) :
    ∃ m', ExtractSubstruct.loop L i m = some m' ∧
      m'.atoms = keepListed L 0 (m.atoms.take i) ++ m.atoms.drop i := by
  induction i generalizing m with
  | zero => exact ⟨m, rfl, by simp [keepListed]⟩
  | succ i ih =>
    have hlt : i < m.atoms.length := hi
    have htake : m.atoms.take (i + 1) = m.atoms.take i ++ [m.atoms[i]] := by
      rw [List.take_succ]; simp [List.getElem?_eq_getElem hlt]
    have hdrop : m.atoms.drop i = m.atoms[i] :: m.atoms.drop (i + 1) :=
      List.drop_eq_getElem_cons hlt
    have hlen : (m.atoms.take i).length = i := by simp; omega
    by_cases hmem : ((i + 1 : Nat) : Int) ∈ L
    · obtain ⟨m', h1, h2⟩ := ih m (by omega)
      refine ⟨m', ?_, ?_⟩
      · simp only [ExtractSubstruct.loop, hmem, if_true]; exact h1
      · rw [h2, htake, keepListed_append, hdrop, hlen]
        simp only [keepListed, zero_add, hmem, if_true, List.append_assoc, List.singleton_append]
    · have hget : m.GetAtom ((i + 1 : Nat) : Int) = some i := by
        unfold OBMol.GetAtom OBMol.NumAtoms
        have h1 : ¬ (((i + 1 : Nat) : Int) < 1 ∨ ((i + 1 : Nat) : Int) > (m.atoms.length : Int)) := by
          omega
        rw [if_neg h1]; simp
      have hdel : (m.DeleteAtom i).atoms = m.atoms.take i ++ m.atoms.drop (i + 1) := by
        simp [OBMol.DeleteAtom, List.eraseIdx_eq_take_drop_succ]
      obtain ⟨m', h1, h2⟩ := ih (m.DeleteAtom i) (by rw [hdel]; simp; omega)
      refine ⟨m', ?_, ?_⟩
      · simp only [ExtractSubstruct.loop, hmem, if_false, hget]; exact h1
      · rw [h2, hdel, htake, keepListed_append, hlen]
        have e1 : (m.atoms.take i ++ m.atoms.drop (i + 1)).take i = m.atoms.take i := by
          rw [List.take_append_of_le_length (by omega)]
          rw [List.take_take]; simp
        have e2 : (m.atoms.take i ++ m.atoms.drop (i + 1)).drop i = m.atoms.drop (i + 1) := by
          rw [List.drop_append_of_le_length (by omega)]
          rw [List.drop_of_length_le (by omega)]; simp
        rw [e1, e2]
        simp only [keepListed, zero_add, hmem, if_false, List.append_nil]

/-- `ExtractSubstruct` always returns, with the flag `true`, and leaves the
listed atoms. -/
theorem extract_spec (L : List Int) (m : OBMol) :
    ∃ m', ExtractSubstruct m L = some (true, m') ∧ m'.atoms = keepListed L 0 m.atoms := by
  obtain ⟨m', h1, h2⟩ := extract_loop_spec L m.atoms.length m (le_refl _)
  refine ⟨m', ?_, ?_⟩
  · simp only [ExtractSubstruct, OBMol.NumAtoms, h1]
  · simpa using h2

theorem keepListed_eq_enumFrom (L : List Int) (s : Nat) (xs : List OBAtom) :
    keepListed L s xs =
      ((xs.enumFrom s).filter (fun p => decide (((p.1 + 1 : Nat) : Int) ∈ L))).map Prod.snd := by
  induction xs generalizing s with
  | nil => simp [keepListed]
  | cons a as ih =>
    rw [keepListed, List.enumFrom_cons, List.filter_cons, ih (s + 1)]
    by_cases h : ((s + 1 : Nat) : Int) ∈ L
    · simp only [h, if_true, decide_True, List.map_cons]
    · simp only [h, if_false, decide_False]; rfl

theorem keepListed_length (L : List Int) (s : Nat) (xs : List OBAtom) :
    (keepListed L s xs).length =
      ((List.range' s xs.length).filter (fun k => decide (((k + 1 : Nat) : Int) ∈ L))).length := by
  induction xs generalizing s with
  | nil => simp [keepListed]
  | cons a as ih =>
    rw [keepListed, List.length_cons, List.range'_succ, List.filter_cons]
    by_cases h : ((s + 1 : Nat) : Int) ∈ L
    · simp only [h, if_true, decide_True, List.length_cons, ih (s + 1)]
    · simp only [h, if_false, decide_False, ih (s + 1)]; rfl

/-- The atoms left are as many as the distinct indices of the list that lie
in `1..n`. -/
theorem keepListed_count (L : List Int) (xs : List OBAtom) :
    (keepListed L 0 xs).length =
      (L.dedup.filter (fun i => decide (1 ≤ i ∧ i ≤ (xs.length : Int)))).length := by
  rw [keepListed_length]
  have hA : (((List.range' 0 xs.length).filter
      (fun k => decide (((k + 1 : Nat) : Int) ∈ L))).map (fun k => ((k + 1 : Nat) : Int))).Nodup := by
    apply List.Nodup.map
    · intro a b h; simpa using h
    · exact (List.nodup_range' 0 xs.length).filter _
  have hB : (L.dedup.filter (fun i => decide (1 ≤ i ∧ i ≤ (xs.length : Int)))).Nodup :=
    (List.nodup_dedup L).filter _
  have hperm := (List.perm_ext_iff_of_nodup hA hB).2 (by
    intro x
    simp only [List.mem_map, List.mem_filter, List.mem_range', decide_eq_true_eq, List.mem_dedup]
    constructor
    · rintro ⟨k, ⟨⟨i, hi, rfl⟩, hk⟩, rfl⟩
      refine ⟨hk, ?_, ?_⟩ <;> omega
    · rintro ⟨hx, h1, h2⟩
      refine ⟨(x - 1).toNat, ⟨⟨(x - 1).toNat, by omega, by omega⟩, ?_⟩, ?_⟩
      · have : (((x - 1).toNat + 1 : Nat) : Int) = x := by omega
        rw [this]; exact hx
      · omega)
  have := hperm.length_eq
  simpa using this

/-! ## Lemmas on `AddDataToSubstruct` -/

theorem SetData_idem (d : List OBPairData) (attr value : String) :
    SetData (SetData d attr value) attr value = SetData d attr value := by
  simp [SetData, List.filter_append, List.filter_filter]

theorem atom_SetData_idem (a : OBAtom) (attr value : String) :
    (a.SetData attr value).SetData attr value = a.SetData attr value := by
  simp [OBAtom.SetData, SetData_idem]

theorem mem_SetData (d : List OBPairData) (attr value : String) :
    (attr, value) ∈ SetData d attr value := by
  simp [SetData]

/-- Effect of the atom loop, atom by atom: an atom gets the data exactly when
its 1-based index is in the list; the bonds are not touched. -/
theorem atomLoop_spec (attr value : String) (L : List Int) (m : OBMol) :
    (AddDataToSubstruct.atomLoop attr value L m).bonds = m.bonds ∧
    ∀ k, (AddDataToSubstruct.atomLoop attr value L m).atoms[k]? =
      (m.atoms[k]?).map
        (fun a => if ((k + 1 : Nat) : Int) ∈ L then a.SetData attr value else a) := by
  induction L generalizing m with
  | nil =>
    refine ⟨rfl, fun k => ?_⟩
    simp [AddDataToSubstruct.atomLoop]
  | cons idx rest ih =>
    by_cases hrange : idx < 1 ∨ idx > (m.NumAtoms : Int)
    · have hget : m.GetAtom idx = none := by simp [OBMol.GetAtom, hrange]
      simp only [AddDataToSubstruct.atomLoop, hget]
      refine ⟨(ih m).1, fun k => ?_⟩
      rw [(ih m).2 k]
      cases hk : m.atoms[k]? with
      | none => rfl
      | some a =>
        have hlt : k < m.atoms.length := by
          by_contra hge
          rw [List.getElem?_eq_none (by omega)] at hk
          exact Option.noConfusion hk
        have hne : ((k + 1 : Nat) : Int) ≠ idx := by
          unfold OBMol.NumAtoms at hrange; omega
        simp only [Option.map_some', List.mem_cons, hne, false_or]
    · have hget : m.GetAtom idx = some (idx - 1).toNat := by simp [OBMol.GetAtom, hrange]
      simp only [AddDataToSubstruct.atomLoop, hget]
      refine ⟨by rw [(ih _).1]; rfl, fun k => ?_⟩
      rw [(ih _).2 k]
      simp only [OBMol.setAtomData, List.getElem?_modify]
      cases hk : m.atoms[k]? with
      | none => rfl
      | some a =>
        by_cases hp : (idx - 1).toNat = k
        · have he : ((k + 1 : Nat) : Int) = idx := by omega
          simp only [Option.map_some', Option.map_eq_map, hp, if_true, he, List.mem_cons, true_or,
            atom_SetData_idem, ite_self]
        · have hne : ((k + 1 : Nat) : Int) ≠ idx := by omega
          simp only [Option.map_some', Option.map_eq_map, hp, if_false, List.mem_cons, hne,
            false_or]

/-- Effect of `AddDataToSubstruct` on the atoms and on the bonds. -/
theorem addData_spec (G : OBMol) (L : List Int) (attr value : String) :
    (AddDataToSubstruct G L attr value).1 = true ∧
    (∀ k, (AddDataToSubstruct G L attr value).2.atoms[k]? =
      (G.atoms[k]?).map
        (fun a => if ((k + 1 : Nat) : Int) ∈ L then a.SetData attr value else a)) ∧
    (AddDataToSubstruct G L attr value).2.bonds =
      G.bonds.map (fun b =>
        if (b.beginIdx : Int) ∈ L ∧ (b.endIdx : Int) ∈ L then b.SetData attr value else b) := by
  refine ⟨rfl, fun k => ?_, ?_⟩
  · simpa [AddDataToSubstruct] using (atomLoop_spec attr value L G).2 k
  · simp only [AddDataToSubstruct, AddDataToSubstruct.bondLoop, (atomLoop_spec attr value L G).1]
    apply List.map_congr_left
    intro b _
    by_cases h1 : (b.beginIdx : Int) ∈ L <;> by_cases h2 : (b.endIdx : Int) ∈ L <;>
      simp [h1, h2, List.count_eq_zero]

/-! ## Lemmas on the matching block -/

theorem toAtomVecs_ne_nil (mappings : List Mapping) (h : mappings ≠ []) :
    ∃ l ls, toAtomVecs mappings = l :: ls := by
  cases mappings with
  | nil => exact absurd rfl h
  | cons a as => exact ⟨_, _, rfl⟩

/-- The query loop when no query has a mapping: every query is tried. -/
theorem queryLoop_none (env : Env) (G : OBMol) (qs : List OBQuery) (imol : Nat)
    (calls : List Call) (h : ∀ q ∈ qs, env.MapUnique q G = []) :
    OpNewS.queryLoop env G qs imol calls =
      .done false (imol + qs.length) none
        (calls ++ (List.range' imol qs.length).map Call.MapUnique) := by
  induction qs generalizing imol calls with
  | nil => simp [OpNewS.queryLoop]
  | cons q rest ih =>
    have hq : env.MapUnique q G = [] := h q (List.mem_cons_self _ _)
    have hrest : ∀ q' ∈ rest, env.MapUnique q' G = [] :=
      fun q' hq' => h q' (List.mem_cons_of_mem _ hq')
    rw [OpNewS.queryLoop]
    simp only [hq, List.isEmpty_nil, Bool.not_true, Bool.false_eq_true, if_false]
    rw [ih (imol + 1) _ hrest]
    simp only [List.length_cons, List.range'_succ, List.map_cons, List.append_assoc,
      List.singleton_append]
    have : imol + 1 + rest.length = imol + (rest.length + 1) := by omega
    rw [this]

/-- The query loop when the query after `pre` is the first with a mapping: the
loop stops there, with the index of that query and its mappings. -/
theorem queryLoop_some (env : Env) (G : OBMol) (pre post : List OBQuery) (q : OBQuery)
    (imol : Nat) (calls : List Call) (hpre : ∀ q' ∈ pre, env.MapUnique q' G = [])
    (hq : env.MapUnique q G ≠ []) :
    OpNewS.queryLoop env G (pre ++ q :: post) imol calls =
      .done true (imol + pre.length) (some (toAtomVecs (env.MapUnique q G)))
        (calls ++ (List.range' imol (pre.length + 1)).map Call.MapUnique) := by
  induction pre generalizing imol calls with
  | nil =>
    have hne : (env.MapUnique q G).isEmpty = false := by
      cases hm : env.MapUnique q G with
      | nil => exact absurd hm hq
      | cons a as => rfl
    simp [OpNewS.queryLoop, hne, List.range'_succ]
  | cons p rest ih =>
    have hp : env.MapUnique p G = [] := hpre p (List.mem_cons_self _ _)
    have hrest : ∀ q' ∈ rest, env.MapUnique q' G = [] :=
      fun q' hq' => hpre q' (List.mem_cons_of_mem _ hq')
    show OpNewS.queryLoop env G (p :: (rest ++ q :: post)) imol calls = _
    rw [OpNewS.queryLoop]
    simp only [hp, List.isEmpty_nil, Bool.not_true, Bool.false_eq_true, if_false]
    rw [ih (imol + 1) _ hrest]
    have e1 : imol + 1 + rest.length = imol + (rest.length + 1) := by omega
    simp only [List.length_cons, e1, List.range'_succ (s := imol), List.map_cons,
      List.append_assoc, List.singleton_append]

/-- The flag and the match lists at the end of the query loop are those of the
first query that has a mapping. -/
theorem queryLoop_find (env : Env) (G : OBMol) (qs : List OBQuery) (imol : Nat)
    (calls : List Call) :
    ∃ i calls', OpNewS.queryLoop env G qs imol calls =
      .done (qs.find? (fun q => !(env.MapUnique q G).isEmpty)).isSome i
        ((qs.find? (fun q => !(env.MapUnique q G).isEmpty)).map
          (fun q => toAtomVecs (env.MapUnique q G))) calls' := by
  induction qs generalizing imol calls with
  | nil => exact ⟨imol, calls, rfl⟩
  | cons q rest ih =>
    by_cases hq : (env.MapUnique q G).isEmpty = true
    · obtain ⟨i, calls', h⟩ := ih (imol + 1) (calls ++ [.MapUnique imol])
      refine ⟨i, calls', ?_⟩
      rw [OpNewS.queryLoop]
      simp only [hq, Bool.not_true, Bool.false_eq_true, if_false, List.find?_cons]
      exact h
    · have hq' : (env.MapUnique q G).isEmpty = false := by simpa using hq
      refine ⟨imol, calls ++ [.MapUnique imol], ?_⟩
      rw [OpNewS.queryLoop]
      simp only [hq', Bool.not_false, if_true, List.find?_cons, Option.isSome_some,
        Option.map_some']

/-- With a pattern that compiles, the matching block ends with `match` equal to
`matched`, and with `pMappedAtoms` pointing to the non-empty match set when
there is a match and null otherwise. -/
theorem matching_spec (env : Env) (st : Statics) (G : OBMol) (hc : patternCompiles env st) :
    ∃ imol calls, OpNewS.matching env st G =
      some (.done (matched env st G) imol
        (if matched env st G then some (matchSet env st G) else none) calls) ∧
      (matched env st G = true → ∃ l ls, matchSet env st G = l :: ls) ∧
      (st.queries = [] → imol = 0) := by
  have hne : matched env st G = true → ∃ l ls, matchSet env st G = l :: ls := by
    intro h
    unfold matched at h
    cases hm : matchSet env st G with
    | nil => rw [hm] at h; exact absurd h (by decide)
    | cons l ls => exact ⟨l, ls, rfl⟩
  by_cases hq : st.queries = []
  · rcases hc with hc | ⟨vec0, rest, hvec, hinit⟩
    · exact absurd hq hc
    · have hms : matchSet env st G = env.smartsMapList vec0 G := by
        simp [matchSet, hq, hvec]
      have hmd : matched env st G = env.smartsMatch vec0 G := by
        simp [matched, hms, Env.smartsMatch]
      refine ⟨0, [.Init vec0, .Match vec0], ?_, hne, fun _ => rfl⟩
      simp only [OpNewS.matching, hq, hvec, hinit, hmd, hms, List.isEmpty_nil, Bool.not_true,
        Bool.false_eq_true, if_false, Bool.not_true]
      cases env.smartsMatch vec0 G <;> rfl
  · have hqe : st.queries.isEmpty = false := by
      cases hqs : st.queries with
      | nil => exact absurd hqs hq
      | cons a as => rfl
    obtain ⟨i, calls', h⟩ := queryLoop_find env G st.queries 0 []
    refine ⟨i, calls', ?_, hne, fun h0 => absurd h0 hq⟩
    simp only [OpNewS.matching, hqe, Bool.not_false, if_true, h]
    congr 2
    · cases hf : st.queries.find? (fun q => !(env.MapUnique q G).isEmpty) with
      | none => simp [matched, matchSet, hqe, hf]
      | some q =>
        have hp := List.find?_some hf
        have hqn : env.MapUnique q G ≠ [] := by
          intro h0; rw [h0] at hp; exact absurd hp (by decide)
        obtain ⟨l, ls, hl⟩ := toAtomVecs_ne_nil _ hqn
        simp [matched, matchSet, hqe, hf, hl]
    · cases hf : st.queries.find? (fun q => !(env.MapUnique q G).isEmpty) with
      | none => simp [matched, matchSet, hqe, hf]
      | some q =>
        have hp := List.find?_some hf
        have hqn : env.MapUnique q G ≠ [] := by
          intro h0; rw [h0] at hp; exact absurd hp (by decide)
        obtain ⟨l, ls, hl⟩ := toAtomVecs_ne_nil _ hqn
        simp [matched, matchSet, hqe, hf, hl]

/-! ## Lemmas on the transform block and on the decision -/

/-- The colouring branch: the label is field `min(imol, size-2) + 1`, a valid
field, and every match list is coloured with it. -/
theorem transform_color (st : Statics) (G : OBMol) (imol : Nat) (mapped : List (List Int))
    (pc : Option OBConversion) (calls : List Call) (hx : st.vec[1]? ≠ some "extract")
    (hlen : 2 ≤ st.vec.length) :
    ∃ value, st.vec[min imol (st.vec.length - 2) + 1]? = some value ∧
      OpNewS.transform st G imol (some mapped) pc calls =
        some ⟨true, some (OpNewS.colorLoop value mapped G), st, pc, calls⟩ := by
  have hidx : min imol (st.vec.length - 2) + 1 < st.vec.length := by omega
  refine ⟨st.vec[min imol (st.vec.length - 2) + 1], List.getElem?_eq_getElem hidx, ?_⟩
  have hmin : (if imol > st.vec.length - 2 then st.vec.length - 2 else imol) =
      min imol (st.vec.length - 2) := by
    split <;> omega
  have hxb : (st.vec[1]? == some "extract") = false := by simpa using hx
  simp only [OpNewS.transform, hxb, Bool.false_eq_true, if_false, hmin,
    List.getElem?_eq_getElem hidx]

/-- The extraction branch: `ExtractSubstruct` on the first match list. -/
theorem transform_extract (st : Statics) (G : OBMol) (imol : Nat) (first : List Int)
    (others : List (List Int)) (pc : Option OBConversion) (calls : List Call)
    (hx : st.vec[1]? = some "extract") :
    ∃ m', ExtractSubstruct G first = some (true, m') ∧
      m'.atoms = keepListed first 0 G.atoms ∧
      OpNewS.transform st G imol (some (first :: others)) pc calls =
        some ⟨true, some m', st, pc, calls⟩ := by
  obtain ⟨m', h1, h2⟩ := extract_spec first G
  refine ⟨m', h1, h2, ?_⟩
  simp only [OpNewS.transform, hx, beq_self_eq_true, if_true, h1]

/-- With a non-null, non-empty list of match lists the transform block returns
`true` and leaves a molecule. -/
theorem transform_total (st : Statics) (G : OBMol) (imol : Nat) (first : List Int)
    (others : List (List Int)) (pc : Option OBConversion) (calls : List Call)
    (hlen : 2 ≤ st.vec.length) :
    ∃ m', OpNewS.transform st G imol (some (first :: others)) pc calls =
      some ⟨true, some m', st, pc, calls⟩ := by
  by_cases hx : st.vec[1]? = some "extract"
  · obtain ⟨m', _, _, h⟩ := transform_extract st G imol first others pc calls hx
    exact ⟨m', h⟩
  · obtain ⟨value, _, h⟩ := transform_color st G imol (first :: others) pc calls hx hlen
    exact ⟨_, h⟩

/-- `Do` after a set-up block that goes on. -/
theorem Do_of_goesOn (env : Env) (ID : String) (st st' : Statics) (G : OBMol) (txt : String)
    (pConv pc : Option OBConversion)
    (hset : OpNewS.setUp env ID st txt pConv = some (.goesOn st' pc)) :
    OpNewS.Do env ID st G txt pConv = OpNewS.perMolecule env st' G pc := by
  simp only [OpNewS.Do, hset]

/-- The decision of lines 271-277 when the size test lets the molecule pass and
the pattern compiles. -/
theorem perMolecule_decision (env : Env) (st : Statics) (G : OBMol)
    (pc : Option OBConversion) (hc : patternCompiles env st)
    (hn : st.nPatternAtoms = 0 ∨ G.NumHvyAtoms = st.nPatternAtoms) :
    ∃ r, OpNewS.perMolecule env st G pc = some r ∧
      r.ret = ((matched env st G && !st.inv) || (!matched env st G && st.inv)) ∧
      (r.ret = false → r.pmol = none) ∧
      (st.inv = true → r.ret = true → r.pmol = some G) := by
  obtain ⟨imol, calls, hm, hne, _⟩ := matching_spec env st G hc
  have hpre : (st.nPatternAtoms != 0 && G.NumHvyAtoms != st.nPatternAtoms) = false := by
    rcases hn with h | h <;> simp [h]
  unfold OpNewS.perMolecule
  simp only [hpre, Bool.false_eq_true, if_false, hm]
  cases hmd : matched env st G <;> cases hinv : st.inv
  · exact ⟨⟨false, none, st, pc, calls⟩, by simp, by simp, by simp, by simp⟩
  · exact ⟨⟨true, some G, OpNewS.tearDown st pc, pc, calls⟩, by simp, by simp, by simp,
      by simp⟩
  · obtain ⟨l, ls, hl⟩ := hne hmd
    by_cases hcond : (!false && decide (st.vec.length ≥ 2) && st.vec[1]? != some "" &&
        st.nPatternAtoms == 0) = true
    · have hlen : 2 ≤ st.vec.length := by
        simp only [Bool.not_false, Bool.true_and, Bool.and_eq_true, decide_eq_true_eq] at hcond
        exact hcond.1.1
      obtain ⟨m', ht⟩ := transform_total st G imol l ls pc calls hlen
      refine ⟨⟨true, some m', st, pc, calls⟩, ?_, by simp, by simp, by simp⟩
      simp only [Bool.not_true, Bool.and_false, Bool.and_true, Bool.or_self,
        Bool.false_eq_true, if_false, hcond, if_true, hl]
      exact ht
    · refine ⟨⟨true, some G, OpNewS.tearDown st pc, pc, calls⟩, ?_, by simp, by simp, by simp⟩
      simp only [Bool.not_true, Bool.and_false, Bool.and_true, Bool.or_self,
        Bool.false_eq_true, if_false, hcond]
      rfl
  · exact ⟨⟨false, none, st, pc, calls⟩, by simp, by simp, by simp, by simp⟩

/-- Whatever the pattern, a `match` that is true comes with a non-null pointer
to a non-empty list of match lists. -/
theorem matching_shape (env : Env) (st : Statics) (G : OBMol) (imol : Nat)
    (pm : Option (List (List Int))) (calls : List Call)
    (h : OpNewS.matching env st G = some (.done true imol pm calls)) :
    ∃ l ls, pm = some (l :: ls) := by
  unfold OpNewS.matching at h
  by_cases hq : st.queries.isEmpty = true
  · simp only [hq, Bool.not_true, Bool.false_eq_true, if_false] at h
    cases hv : st.vec with
    | nil => rw [hv] at h; exact Option.noConfusion h
    | cons vec0 rest =>
      rw [hv] at h
      simp only at h
      by_cases hinit : env.smartsInit vec0 = true
      · simp only [hinit, Bool.not_true, Bool.false_eq_true, if_false] at h
        by_cases hmatch : env.smartsMatch vec0 G = true
        · simp only [hmatch, if_true, Option.some.injEq, Matching.done.injEq, true_and] at h
          obtain ⟨_, hpm, _⟩ := h
          unfold Env.smartsMatch at hmatch
          cases hl : env.smartsMapList vec0 G with
          | nil => rw [hl] at hmatch; exact absurd hmatch (by decide)
          | cons l ls => exact ⟨l, ls, by rw [← hpm, hl]⟩
        · simp only [hmatch, if_false, Option.some.injEq, Matching.done.injEq,
            Bool.false_eq_true, false_and] at h
      · simp only [hinit, Bool.not_false, if_true, Option.some.injEq] at h
        exact Matching.noConfusion h
  · have hq' : st.queries.isEmpty = false := by simpa using hq
    simp only [hq', Bool.not_false, if_true, Option.some.injEq] at h
    obtain ⟨i, calls', hf⟩ := queryLoop_find env G st.queries 0 []
    rw [hf] at h
    simp only [Matching.done.injEq] at h
    obtain ⟨h1, _, h3, _⟩ := h
    cases hfind : st.queries.find? (fun q => !(env.MapUnique q G).isEmpty) with
    | none => rw [hfind] at h1; exact absurd h1 (by decide)
    | some q =>
      have hp := List.find?_some hfind
      have hqn : env.MapUnique q G ≠ [] := by
        intro h0; rw [h0] at hp; exact absurd hp (by decide)
      obtain ⟨l, ls, hl⟩ := toAtomVecs_ne_nil _ hqn
      exact ⟨l, ls, by rw [← h3, hfind, Option.map_some', hl]⟩

/-- With the inversion flag on, a molecule that is kept is handed back as it
came. -/
theorem perMolecule_inv (env : Env) (st : Statics) (G : OBMol) (pc : Option OBConversion)
    (hinv : st.inv = true) (r : DoResult) (h : OpNewS.perMolecule env st G pc = some r)
    (hret : r.ret = true) : r.pmol = some G := by
  unfold OpNewS.perMolecule at h
  split at h
  · cases h; exact absurd hret (by simp)
  · split at h
    · exact Option.noConfusion h
    · split at h
      · exact Option.noConfusion h
      · cases h; exact absurd hret (by simp)
    · split at h
      · cases h; exact absurd hret (by simp)
      · simp only [hinv, Bool.not_true, Bool.false_and, Bool.false_eq_true, if_false,
          Option.some.injEq] at h
        rw [← h]

/-- With a conversion object and a first field or a query, the part of `Do`
after the set-up returns, and it leaves `vec`, `inv` and the atom count as
they were. -/
theorem perMolecule_total (env : Env) (st : Statics) (G : OBMol) (conv : OBConversion)
    (hready : st.queries ≠ [] ∨ st.vec ≠ []) :
    ∃ r, OpNewS.perMolecule env st G (some conv) = some r ∧ r.statics.vec = st.vec ∧
      r.statics.inv = st.inv ∧ r.statics.nPatternAtoms = st.nPatternAtoms := by
  unfold OpNewS.perMolecule
  split
  · exact ⟨_, rfl, rfl, rfl, rfl⟩
  · cases hm : OpNewS.matching env st G with
    | none =>
      exfalso
      unfold OpNewS.matching at hm
      rcases hready with hq | hv
      · have hq' : st.queries.isEmpty = false := by
          cases hqs : st.queries with
          | nil => exact absurd hqs hq
          | cons a as => rfl
        simp [hq'] at hm
      · cases hvs : st.vec with
        | nil => exact absurd hvs hv
        | cons vec0 rest =>
          rw [hvs] at hm
          simp only at hm
          split at hm
          · exact Option.noConfusion hm
          · split at hm
            · exact Option.noConfusion hm
            · split at hm <;> exact Option.noConfusion hm
    | some M =>
      cases M with
      | initFailed calls => exact ⟨_, rfl, rfl, rfl, rfl⟩
      | done isMatch imol pm calls =>
        simp only
        split
        · exact ⟨_, rfl, rfl, rfl, rfl⟩
        · rename_i hdrop
          split
          · rename_i hcond
            simp only [Bool.and_eq_true, decide_eq_true_eq] at hcond
            obtain ⟨⟨⟨hi, hlen⟩, _⟩, _⟩ := hcond
            have hmt : isMatch = true := by
              cases isMatch
              · simp [hi] at hdrop
              · rfl
            subst hmt
            obtain ⟨l, ls, hl⟩ := matching_shape env st G imol pm calls hm
            subst hl
            obtain ⟨m', ht⟩ := transform_total st G imol l ls (some conv) calls hlen
            exact ⟨_, ht, rfl, rfl, rfl⟩
          · refine ⟨_, rfl, ?_, ?_, ?_⟩ <;>
              (simp only [OpNewS.tearDown]; split <;> rfl)

/-! ## Lemmas on the set-up block -/

theorem tokenize_ne_nil_text (txt : String) (f0 : String) (rest : List String)
    (htok : tokenize txt = f0 :: rest) : txt.toList.isEmpty = false := by
  cases ht : txt.toList with
  | nil =>
    unfold tokenize at htok
    rw [ht] at htok
    simp [tokenize.go] at htok
  | cons c cs => rfl

/-- The set-up block on a text with a first field `f0`: `vec` and `inv` are
set from the fields and the identity, and the block either goes on, with the
option text cleared, or returns `false` with the molecule deleted. -/
theorem setUp_first (env : Env) (ID : String) (st : Statics) (txt : String)
    (conv : OBConversion) (f0 : String) (rest : List String)
    (htok : tokenize txt = f0 :: rest) :
    ∃ n q,
      OpNewS.setUp env ID st txt (some conv) =
        some (.goesOn
          ⟨(if f0.toList.head? == some '~' then String.mk (f0.toList.drop 1) else f0) :: rest,
            (if f0.toList.head? == some '~' then true else ID.toList.head? == some 'v'), n, q⟩
          (some (conv.AddOption ID))) ∨
      OpNewS.setUp env ID st txt (some conv) =
        some (.returned ⟨false, none,
          ⟨(if f0.toList.head? == some '~' then String.mk (f0.toList.drop 1) else f0) :: rest,
            (if f0.toList.head? == some '~' then true else ID.toList.head? == some 'v'), n, q⟩,
          some conv.SetOneObjectOnly, []⟩) := by
  have hne := tokenize_ne_nil_text txt f0 rest htok
  unfold OpNewS.setUp
  simp only [hne, Bool.false_eq_true, if_false, htok]
  generalize (if (f0.toList.head? == some '~') = true then String.mk (f0.toList.drop 1)
    else f0) = vec0
  generalize (if (f0.toList.head? == some '~') = true then true
    else ID.toList.head? == some 'v') = inv
  by_cases hex : (decide ((vec0 :: rest).length > 1) && (vec0 :: rest)[1]? == some "exact") = true
  · simp only [hex, if_true]
    by_cases hq : (MakeQueriesFromMolInFile env st.queries vec0 st.nPatternAtoms).2.1.isEmpty = true
    · simp only [hq, if_true]
      cases hs : env.readSmiles vec0 with
      | none => exact ⟨_, _, Or.inr rfl⟩
      | some patmol => exact ⟨_, _, Or.inl rfl⟩
    · simp only [hq, if_false]; exact ⟨_, _, Or.inl rfl⟩
  · simp only [hex, if_false]; exact ⟨_, _, Or.inl rfl⟩

/-- With queries from a file, there is a match iff some query has a mapping. -/
theorem matched_file_iff (env : Env) (st : Statics) (G : OBMol) (hfile : st.queries ≠ []) :
    matched env st G = true ↔ ∃ q ∈ st.queries, env.MapUnique q G ≠ [] := by
  have hqe : st.queries.isEmpty = false := by
    cases hqs : st.queries with
    | nil => exact absurd hqs hfile
    | cons a as => rfl
  unfold matched matchSet
  simp only [hqe, Bool.false_eq_true, if_false]
  cases hf : st.queries.find? (fun q => !(env.MapUnique q G).isEmpty) with
  | none =>
    have hall := List.find?_eq_none.1 hf
    simp only [List.isEmpty_nil, Bool.not_true, Bool.false_eq_true, false_iff, not_exists, not_and,
      not_not]
    intro q hq
    have := hall q hq
    cases hm : env.MapUnique q G with
    | nil => rfl
    | cons a as => rw [hm] at this; simp at this
  | some q =>
    have hp := List.find?_some hf
    have hmem := List.mem_of_find?_eq_some hf
    have hqn : env.MapUnique q G ≠ [] := by
      intro h0; rw [h0] at hp; exact absurd hp (by decide)
    obtain ⟨l, ls, hl⟩ := toAtomVecs_ne_nil _ hqn
    simp only [hl, List.isEmpty_cons, Bool.not_false, true_iff]
    exact ⟨q, hmem, hqn⟩

/-- The part of `Do` after the set-up when the inversion flag is off, the size
test is inactive and the matching block has found a match. -/
theorem perMolecule_of_match (env : Env) (st : Statics) (G : OBMol)
    (pc : Option OBConversion) (imol : Nat) (mapped : List (List Int)) (calls : List Call)
    (hinv : st.inv = false) (hexact : st.nPatternAtoms = 0)
    (hm : OpNewS.matching env st G = some (.done true imol (some mapped) calls)) :
    OpNewS.perMolecule env st G pc =
      if 2 ≤ st.vec.length ∧ st.vec[1]? ≠ some "" then
        OpNewS.transform st G imol (some mapped) pc calls
      else some ⟨true, some G, OpNewS.tearDown st pc, pc, calls⟩ := by
  unfold OpNewS.perMolecule
  simp only [hexact, hinv, hm, bne_self_eq_false, Bool.false_and, Bool.false_eq_true, if_false,
    Bool.not_true, Bool.and_false, Bool.or_self, Bool.not_false, Bool.true_and, beq_self_eq_true,
    Bool.and_true, Bool.and_eq_true, decide_eq_true_eq, bne_iff_ne, ne_eq, ge_iff_le]

/-- With no query from a file the matching block leaves `imol` at 0. -/
theorem matching_text_imol (env : Env) (st : Statics) (G : OBMol) (isMatch : Bool) (imol : Nat)
    (pm : Option (List (List Int))) (calls : List Call) (hq : st.queries = [])
    (h : OpNewS.matching env st G = some (.done isMatch imol pm calls)) : imol = 0 := by
  unfold OpNewS.matching at h
  simp only [hq, List.isEmpty_nil, Bool.not_true, Bool.false_eq_true, if_false] at h
  split at h
  · exact Option.noConfusion h
  · split at h
    · simp only [Option.some.injEq] at h; exact Matching.noConfusion h
    · split at h <;>
        (simp only [Option.some.injEq, Matching.done.injEq] at h; exact h.2.1.symm)

/-- Effect of the colouring loop of lines 294-295: an atom carries the data
when its 1-based index occurs in one of the match lists, a bond when both its
atom indices occur in one and the same match list; all else is untouched. -/
theorem colorLoop_spec (value : String) (mapped : List (List Int)) (G : OBMol) :
    (∀ k, (OpNewS.colorLoop value mapped G).atoms[k]? =
      (G.atoms[k]?).map (fun a =>
        if mapped.any (fun l => decide (((k + 1 : Nat) : Int) ∈ l)) = true
        then a.SetData "color" value else a)) ∧
    (OpNewS.colorLoop value mapped G).bonds =
      G.bonds.map (fun b =>
        if mapped.any (fun l => decide ((b.beginIdx : Int) ∈ l) &&
          decide ((b.endIdx : Int) ∈ l)) = true
        then b.SetData "color" value else b) := by
  induction mapped generalizing G with
  | nil =>
    refine ⟨fun k => ?_, ?_⟩
    · simp [OpNewS.colorLoop]
    · simp [OpNewS.colorLoop]
  | cons l rest ih =>
    obtain ⟨_, hA, hB⟩ := addData_spec G l "color" value
    obtain ⟨ihA, ihB⟩ := ih (AddDataToSubstruct G l "color" value).2
    refine ⟨fun k => ?_, ?_⟩
    · rw [OpNewS.colorLoop, ihA k, hA k]
      cases G.atoms[k]? with
      | none => rfl
      | some a =>
        simp only [Option.map_some', List.any_cons]
        by_cases h1 : ((k + 1 : Nat) : Int) ∈ l <;>
          by_cases h2 : rest.any (fun l => decide (((k + 1 : Nat) : Int) ∈ l)) = true <;>
          simp only [h1, h2, decide_True, decide_False, Bool.true_or, Bool.false_or, Bool.or_true,
            Bool.or_false, if_true, if_false, Bool.false_eq_true, atom_SetData_idem]
    · rw [OpNewS.colorLoop, ihB, hB, List.map_map]
      apply List.map_congr_left
      intro b _
      have hidem : (b.SetData "color" value).SetData "color" value = b.SetData "color" value := by
        simp [OBBond.SetData, SetData_idem]
      have hb : (b.SetData "color" value).beginIdx = b.beginIdx := rfl
      have he : (b.SetData "color" value).endIdx = b.endIdx := rfl
      have hany : (List.any (l :: rest) (fun l => decide ((b.beginIdx : Int) ∈ l) &&
            decide ((b.endIdx : Int) ∈ l))) =
          (decide ((b.beginIdx : Int) ∈ l ∧ (b.endIdx : Int) ∈ l) ||
            rest.any (fun l => decide ((b.beginIdx : Int) ∈ l) &&
              decide ((b.endIdx : Int) ∈ l))) := by
        rw [List.any_cons, Bool.decide_and]
      show (fun b => if (rest.any fun l => decide ((b.beginIdx : Int) ∈ l) &&
            decide ((b.endIdx : Int) ∈ l)) = true then b.SetData "color" value else b)
          (if (b.beginIdx : Int) ∈ l ∧ (b.endIdx : Int) ∈ l then b.SetData "color" value else b) =
        if (List.any (l :: rest) (fun l => decide ((b.beginIdx : Int) ∈ l) &&
            decide ((b.endIdx : Int) ∈ l))) = true then b.SetData "color" value else b
      rw [hany]
      by_cases h1 : (b.beginIdx : Int) ∈ l ∧ (b.endIdx : Int) ∈ l
      · rw [if_pos h1]
        have hd : decide ((b.beginIdx : Int) ∈ l ∧ (b.endIdx : Int) ∈ l) = true :=
          decide_eq_true h1
        rw [hd, Bool.true_or, if_pos rfl]
        show (if (rest.any fun l => decide (((b.SetData "color" value).beginIdx : Int) ∈ l) &&
            decide (((b.SetData "color" value).endIdx : Int) ∈ l)) = true
          then (b.SetData "color" value).SetData "color" value else b.SetData "color" value) = _
        rw [hidem, ite_self]
      · rw [if_neg h1]
        have hd : decide ((b.beginIdx : Int) ∈ l ∧ (b.endIdx : Int) ∈ l) = false :=
          decide_eq_false h1
        rw [hd, Bool.false_or]

/-! ## The claims -/

/-- C1: when the set-up of `Do` completes with a pattern that compiles and with
the required atom count 0 (exact-size matching not active), `Do` returns, and
it returns `true` exactly when (matched and not inverted) or (not matched and
inverted), where matched means that the match set of the pattern on the graph
is not empty; with inversion off the graph is kept iff the match set is not
empty; whenever `Do` returns `false` here the graph has been deleted. -/
theorem C1_keep_is_matched_xor_inverted (env : Env) (ID : String) (st st' : Statics)
    (G : OBMol) (txt : String) (pConv pc : Option OBConversion)
    (hset : OpNewS.setUp env ID st txt pConv = some (.goesOn st' pc))
    (hcompiles : patternCompiles env st')
    (hexact : st'.nPatternAtoms = 0) :
    ∃ r, OpNewS.Do env ID st G txt pConv = some r ∧
      r.ret = ((matched env st' G && !st'.inv) || (!matched env st' G && st'.inv)) ∧
      (st'.inv = false → (r.ret = true ↔ matchSet env st' G ≠ [])) ∧
      (r.ret = false → r.pmol = none) := by
  obtain ⟨r, h1, h2, h3, _⟩ := perMolecule_decision env st' G pc hcompiles (Or.inl hexact)
  refine ⟨r, ?_, h2, ?_, h3⟩
  · rw [Do_of_goesOn env ID st st' G txt pConv pc hset]; exact h1
  · intro hinv
    rw [h2, hinv]
    unfold matched
    cases matchSet env st' G <;> simp

/-- C1 at a first call: `c1ccccc1 green` with `-s` on benzene. -/
theorem C1_keep_is_matched_xor_inverted_witness :
    OpNewS.setUp demoEnv "s" Statics.initial "c1ccccc1 green" (some demoConv) =
      some (.goesOn ⟨["c1ccccc1", "green"], false, 0, []⟩ (some (demoConv.AddOption "s"))) ∧
    patternCompiles demoEnv ⟨["c1ccccc1", "green"], false, 0, []⟩ ∧
    ∃ r, OpNewS.Do demoEnv "s" Statics.initial benzene "c1ccccc1 green" (some demoConv) = some r ∧
      r.ret = ((matched demoEnv ⟨["c1ccccc1", "green"], false, 0, []⟩ benzene && !false) ||
        (!matched demoEnv ⟨["c1ccccc1", "green"], false, 0, []⟩ benzene && false)) ∧
      (false = false →
        (r.ret = true ↔ matchSet demoEnv ⟨["c1ccccc1", "green"], false, 0, []⟩ benzene ≠ [])) ∧
      (r.ret = false → r.pmol = none) :=
  ⟨by decide, Or.inr ⟨"c1ccccc1", ["green"], rfl, by decide⟩,
    C1_keep_is_matched_xor_inverted demoEnv "s" Statics.initial
      ⟨["c1ccccc1", "green"], false, 0, []⟩ benzene "c1ccccc1 green" (some demoConv)
      (some (demoConv.AddOption "s")) (by decide)
      (Or.inr ⟨"c1ccccc1", ["green"], rfl, by decide⟩) rfl⟩

/-- C2, refuted as stated: with the fields `c1ccccc1 exact` and toluene (7 heavy
atoms against 6 required) `Do` returns `false` with the inversion flag off
(`-s`) and `false` again with the flag on (`-v`), so the result with inversion
is not the negation of the result without. -/
theorem C2_counterexample :
    ∃ r r', OpNewS.Do demoEnv "s" Statics.initial toluene "c1ccccc1 exact" (some demoConv) = some r ∧
      OpNewS.Do demoEnv "v" Statics.initial toluene "c1ccccc1 exact" (some demoConv) = some r' ∧
      r.statics.inv = false ∧ r'.statics.inv = true ∧
      r'.statics.vec = r.statics.vec ∧ r'.statics.nPatternAtoms = r.statics.nPatternAtoms ∧
      r.ret = false ∧ r'.ret = false ∧ r'.ret ≠ !r.ret :=
  ⟨⟨false, some toluene, ⟨["c1ccccc1", "exact"], false, 6, []⟩, some (demoConv.AddOption "s"), []⟩,
    ⟨false, some toluene, ⟨["c1ccccc1", "exact"], true, 6, []⟩, some (demoConv.AddOption "v"), []⟩,
    by decide, by decide, rfl, rfl, rfl, rfl, rfl, rfl, by decide⟩

/-- C2, amended: for two set-ups that leave the same static variables except
for the inversion flag (same pattern, same further fields), with a pattern
that compiles and a graph that passes the exact-size test (required count 0 or
equal to the heavy-atom count of the graph), both calls of `Do` return and the
keep result of one is the boolean negation of the other; the call with the
inversion flag on keeps the graph iff the match set is empty. -/
theorem C2_inversion_negates_keep (env : Env) (ID ID' : String) (st st0 : Statics) (G : OBMol)
    (txt txt' : String) (pConv pc pc' : Option OBConversion)
    (hset : OpNewS.setUp env ID st txt pConv = some (.goesOn st0 pc))
    (hset' : OpNewS.setUp env ID' st txt' pConv =
      some (.goesOn { st0 with inv := !st0.inv } pc'))
    (hcompiles : patternCompiles env st0)
    (hsize : st0.nPatternAtoms = 0 ∨ G.NumHvyAtoms = st0.nPatternAtoms) :
    ∃ r r', OpNewS.Do env ID st G txt pConv = some r ∧
      OpNewS.Do env ID' st G txt' pConv = some r' ∧
      r'.ret = !r.ret ∧
      (st0.inv = false → (r'.ret = true ↔ matchSet env st0 G = [])) ∧
      (st0.inv = true → (r.ret = true ↔ matchSet env st0 G = [])) := by
  obtain ⟨r, h1, h2, _⟩ := perMolecule_decision env st0 G pc hcompiles hsize
  obtain ⟨r', h1', h2', _⟩ :=
    perMolecule_decision env { st0 with inv := !st0.inv } G pc' hcompiles hsize
  have hm : matched env { st0 with inv := !st0.inv } G = matched env st0 G := rfl
  rw [hm] at h2'
  refine ⟨r, r', ?_, ?_, ?_, ?_, ?_⟩
  · rw [Do_of_goesOn env ID st st0 G txt pConv pc hset]; exact h1
  · rw [Do_of_goesOn env ID' st _ G txt' pConv pc' hset']; exact h1'
  · rw [h2, h2']; cases matched env st0 G <;> cases st0.inv <;> rfl
  · intro hinv
    rw [h2', hinv]
    unfold matched
    cases matchSet env st0 G <;> simp
  · intro hinv
    rw [h2, hinv]
    unfold matched
    cases matchSet env st0 G <;> simp

/-- C2 amended, at `-s` against `-v` with the text `c1ccccc1 green` on toluene. -/
theorem C2_inversion_negates_keep_witness :
    OpNewS.setUp demoEnv "s" Statics.initial "c1ccccc1 green" (some demoConv) =
      some (.goesOn ⟨["c1ccccc1", "green"], false, 0, []⟩ (some (demoConv.AddOption "s"))) ∧
    OpNewS.setUp demoEnv "v" Statics.initial "c1ccccc1 green" (some demoConv) =
      some (.goesOn ⟨["c1ccccc1", "green"], true, 0, []⟩ (some (demoConv.AddOption "v"))) ∧
    ∃ r r', OpNewS.Do demoEnv "s" Statics.initial toluene "c1ccccc1 green" (some demoConv) = some r ∧
      OpNewS.Do demoEnv "v" Statics.initial toluene "c1ccccc1 green" (some demoConv) = some r' ∧
      r'.ret = !r.ret ∧
      (false = false →
        (r'.ret = true ↔ matchSet demoEnv ⟨["c1ccccc1", "green"], false, 0, []⟩ toluene = [])) ∧
      (false = true →
        (r.ret = true ↔ matchSet demoEnv ⟨["c1ccccc1", "green"], false, 0, []⟩ toluene = [])) :=
  ⟨by decide, by decide,
    C2_inversion_negates_keep demoEnv "s" "v" Statics.initial
      ⟨["c1ccccc1", "green"], false, 0, []⟩ toluene "c1ccccc1 green" "c1ccccc1 green"
      (some demoConv) (some (demoConv.AddOption "s")) (some (demoConv.AddOption "v"))
      (by decide) (by decide) (Or.inr ⟨"c1ccccc1", ["green"], rfl, by decide⟩) (Or.inl rfl)⟩

/-- C3: when the set-up leaves a required atom count `N` that is not 0 and the
heavy-atom count of the graph differs from `N`, `Do` returns `false` with no
matcher invoked (the list of matcher calls is empty) and the graph untouched,
whatever the inversion flag and whatever the matchers would find. -/
theorem C3_size_mismatch_returns_false (env : Env) (ID : String) (st st' : Statics)
    (G : OBMol) (txt : String) (pConv pc : Option OBConversion)
    (hset : OpNewS.setUp env ID st txt pConv = some (.goesOn st' pc))
    (hactive : st'.nPatternAtoms ≠ 0)
    (hsize : G.NumHvyAtoms ≠ st'.nPatternAtoms) :
    OpNewS.Do env ID st G txt pConv = some ⟨false, some G, st', pc, []⟩ := by
  rw [Do_of_goesOn env ID st st' G txt pConv pc hset]
  unfold OpNewS.perMolecule
  have h : (st'.nPatternAtoms != 0 && G.NumHvyAtoms != st'.nPatternAtoms) = true := by
    simp [hactive, hsize]
  simp only [h, if_true]

/-- C3 at `c1ccccc1 exact` on toluene: 7 heavy atoms against 6, dropped although
the ring pattern has a match on toluene. -/
theorem C3_size_mismatch_returns_false_witness :
    OpNewS.setUp demoEnv "s" Statics.initial "c1ccccc1 exact" (some demoConv) =
      some (.goesOn ⟨["c1ccccc1", "exact"], false, 6, []⟩ (some (demoConv.AddOption "s"))) ∧
    (6 : Nat) ≠ 0 ∧ toluene.NumHvyAtoms ≠ 6 ∧
    matched demoEnv ⟨["c1ccccc1", "exact"], false, 6, []⟩ toluene = true ∧
    OpNewS.Do demoEnv "s" Statics.initial toluene "c1ccccc1 exact" (some demoConv) =
      some ⟨false, some toluene, ⟨["c1ccccc1", "exact"], false, 6, []⟩,
        some (demoConv.AddOption "s"), []⟩ :=
  ⟨by decide, by decide, by decide, by decide,
    C3_size_mismatch_returns_false demoEnv "s" Statics.initial
      ⟨["c1ccccc1", "exact"], false, 6, []⟩ toluene "c1ccccc1 exact" (some demoConv)
      (some (demoConv.AddOption "s")) (by decide) (by decide) (by decide)⟩

/-- C4: with queries from a file, inversion off and the size test inactive, `Do`
returns and keeps the graph iff some query has a mapping on it; if query `i`
is the first with a mapping, the matching block ends with `imol = i` and the
match lists of query `i`, these are what the transform block receives, and
the mapper has been invoked on the queries `0..i` only. -/
theorem C4_or_over_alternatives (env : Env) (ID : String) (st st' : Statics) (G : OBMol)
    (txt : String) (pConv pc : Option OBConversion)
    (hset : OpNewS.setUp env ID st txt pConv = some (.goesOn st' pc))
    (hfile : st'.queries ≠ []) (hinv : st'.inv = false) (hexact : st'.nPatternAtoms = 0) :
    ∃ r, OpNewS.Do env ID st G txt pConv = some r ∧
      (r.ret = true ↔ ∃ q ∈ st'.queries, env.MapUnique q G ≠ []) ∧
      ∀ (i : Nat) (hi : i < st'.queries.length),
        env.MapUnique st'.queries[i] G ≠ [] →
        (∀ (j : Nat) (hj : j < st'.queries.length), j < i →
          env.MapUnique st'.queries[j] G = []) →
        OpNewS.matching env st' G =
          some (.done true i (some (toAtomVecs (env.MapUnique st'.queries[i] G)))
            ((List.range (i + 1)).map Call.MapUnique)) ∧
        r.calls = (List.range (i + 1)).map Call.MapUnique ∧
        some r =
          if 2 ≤ st'.vec.length ∧ st'.vec[1]? ≠ some "" then
            OpNewS.transform st' G i (some (toAtomVecs (env.MapUnique st'.queries[i] G))) pc
              ((List.range (i + 1)).map Call.MapUnique)
          else
            some ⟨true, some G, OpNewS.tearDown st' pc, pc,
              (List.range (i + 1)).map Call.MapUnique⟩ := by
  obtain ⟨r, h1, h2, _⟩ :=
    perMolecule_decision env st' G pc (Or.inl hfile) (Or.inl hexact)
  refine ⟨r, ?_, ?_, ?_⟩
  · rw [Do_of_goesOn env ID st st' G txt pConv pc hset]; exact h1
  · rw [h2, hinv, ← matched_file_iff env st' G hfile]
    cases matched env st' G <;> simp
  · intro i hi hq hbefore
    have hsplit : st'.queries =
        st'.queries.take i ++ st'.queries[i] :: st'.queries.drop (i + 1) := by
      rw [← List.drop_eq_getElem_cons hi, List.take_append_drop]
    have hpre : ∀ q' ∈ st'.queries.take i, env.MapUnique q' G = [] := by
      intro q' hq'
      obtain ⟨j, hj, hjq⟩ := List.getElem_of_mem hq'
      have hji : j < i := by
        have := hj; rw [List.length_take] at this; omega
      rw [← hjq, List.getElem_take]
      exact hbefore j (by omega) hji
    have hloop := queryLoop_some env G (st'.queries.take i) (st'.queries.drop (i + 1))
      st'.queries[i] 0 [] hpre hq
    rw [← hsplit] at hloop
    have hlen : (st'.queries.take i).length = i := by
      rw [List.length_take]; omega
    rw [hlen, Nat.zero_add, List.nil_append, ← List.range_eq_range'] at hloop
    have hqe : st'.queries.isEmpty = false := by
      cases hqs : st'.queries with
      | nil => exact absurd hqs hfile
      | cons a as => rfl
    have hm : OpNewS.matching env st' G =
        some (.done true i (some (toAtomVecs (env.MapUnique st'.queries[i] G)))
          ((List.range (i + 1)).map Call.MapUnique)) := by
      unfold OpNewS.matching
      simp only [hqe, Bool.not_false, if_true, hloop]
    have hper := perMolecule_of_match env st' G pc i _ _ hinv hexact hm
    refine ⟨hm, ?_, ?_⟩
    · obtain ⟨l, ls, hl⟩ := toAtomVecs_ne_nil _ hq
      rw [hl] at hper
      by_cases hcond : 2 ≤ st'.vec.length ∧ st'.vec[1]? ≠ some ""
      · obtain ⟨m', ht⟩ := transform_total st' G i l ls pc
          ((List.range (i + 1)).map Call.MapUnique) hcond.1
        rw [if_pos hcond, ht, h1] at hper
        cases hper; rfl
      · rw [if_neg hcond, h1] at hper
        cases hper; rfl
    · rw [← h1, hper]

/-- C4 on the file `two.sdf` (benzene, then ethanol) with ethanol as graph: the
first alternative has no mapping, the second has one. -/
theorem C4_or_over_alternatives_witness :
    OpNewS.setUp demoEnv "s" Statics.initial "two.sdf red blue" (some demoConv) =
      some (.goesOn ⟨["two.sdf", "red", "blue"], false, 0, [⟨benzene⟩, ⟨ethanol⟩]⟩
        (some (demoConv.AddOption "s"))) ∧
    ∃ r, OpNewS.Do demoEnv "s" Statics.initial ethanol "two.sdf red blue" (some demoConv) = some r ∧
      (r.ret = true ↔ ∃ q ∈ [(⟨benzene⟩ : OBQuery), ⟨ethanol⟩], demoEnv.MapUnique q ethanol ≠ []) ∧
      r.calls = [Call.MapUnique 0, Call.MapUnique 1] ∧
      OpNewS.matching demoEnv ⟨["two.sdf", "red", "blue"], false, 0, [⟨benzene⟩, ⟨ethanol⟩]⟩ ethanol =
        some (.done true 1 (some [[1, 2, 3]]) [Call.MapUnique 0, Call.MapUnique 1]) := by
  refine ⟨by decide, ?_⟩
  obtain ⟨r, h1, h2, h3⟩ := C4_or_over_alternatives demoEnv "s" Statics.initial
    ⟨["two.sdf", "red", "blue"], false, 0, [⟨benzene⟩, ⟨ethanol⟩]⟩ ethanol "two.sdf red blue"
    (some demoConv) (some (demoConv.AddOption "s")) (by decide) (by decide) rfl rfl
  obtain ⟨h4, h5, _⟩ := h3 1 (by decide) (by decide) (by
    intro j hj hj1
    have : j = 0 := by omega
    subst this
    rfl)
  exact ⟨r, h1, h2, h5, h4⟩

/-- C5: when the colouring runs (inversion off, size test inactive, field 1
present, not empty and not `extract`, a match found by alternative `imol`) with
the labels being the fields `1..m`, `m = vec.size() - 1 ≥ 1`, `Do` colours every
match list with the field of index `min(imol, m-1) + 1`, which lies in `1..m`:
field `imol + 1` if `imol < m` and field `m`, the last label, otherwise; with
a SMARTS text (no query from a file) it is always field 1. The colouring
attaches that value: in the graph that `Do` leaves, every atom whose index
occurs in a match list, and every bond both of whose atom indices occur in
one match list, carries the pair (color, value), and it is its only entry of
the attribute color; every other atom and bond is as it was. -/
theorem C5_label_selection (env : Env) (ID : String) (st st' : Statics) (G : OBMol)
    (txt : String) (pConv pc : Option OBConversion) (imol : Nat) (mapped : List (List Int))
    (calls : List Call)
    (hset : OpNewS.setUp env ID st txt pConv = some (.goesOn st' pc))
    (hinv : st'.inv = false) (hexact : st'.nPatternAtoms = 0)
    (hlabels : 1 ≤ st'.vec.length - 1)
    (hfield : st'.vec[1]? ≠ some "") (hx : st'.vec[1]? ≠ some "extract")
    (hm : OpNewS.matching env st' G = some (.done true imol (some mapped) calls)) :
    ∃ value,
      OpNewS.Do env ID st G txt pConv =
        some ⟨true, some (OpNewS.colorLoop value mapped G), st', pc, calls⟩ ∧
      st'.vec[min imol (st'.vec.length - 1 - 1) + 1]? = some value ∧
      1 ≤ min imol (st'.vec.length - 1 - 1) + 1 ∧
      min imol (st'.vec.length - 1 - 1) + 1 ≤ st'.vec.length - 1 ∧
      (imol < st'.vec.length - 1 → st'.vec[imol + 1]? = some value) ∧
      (st'.vec.length - 1 ≤ imol → st'.vec[st'.vec.length - 1]? = some value) ∧
      (st'.queries = [] → imol = 0 ∧ st'.vec[1]? = some value) ∧
      (∀ (k : Nat) (a : OBAtom), G.atoms[k]? = some a →
        ((∃ l ∈ mapped, ((k + 1 : Nat) : Int) ∈ l) →
          (OpNewS.colorLoop value mapped G).atoms[k]? = some (a.SetData "color" value) ∧
          ("color", value) ∈ (a.SetData "color" value).data ∧
          (a.SetData "color" value).data.filter (fun p => p.1 == "color") =
            [("color", value)]) ∧
        ((¬ ∃ l ∈ mapped, ((k + 1 : Nat) : Int) ∈ l) →
          (OpNewS.colorLoop value mapped G).atoms[k]? = some a)) ∧
      (∀ (k : Nat) (b : OBBond), G.bonds[k]? = some b →
        ((∃ l ∈ mapped, (b.beginIdx : Int) ∈ l ∧ (b.endIdx : Int) ∈ l) →
          (OpNewS.colorLoop value mapped G).bonds[k]? = some (b.SetData "color" value) ∧
          ("color", value) ∈ (b.SetData "color" value).data ∧
          (b.SetData "color" value).data.filter (fun p => p.1 == "color") =
            [("color", value)]) ∧
        ((¬ ∃ l ∈ mapped, (b.beginIdx : Int) ∈ l ∧ (b.endIdx : Int) ∈ l) →
          (OpNewS.colorLoop value mapped G).bonds[k]? = some b)) := by
  have hlen : 2 ≤ st'.vec.length := by omega
  obtain ⟨value, hv, ht⟩ := transform_color st' G imol mapped pc calls hx hlen
  have hper := perMolecule_of_match env st' G pc imol mapped calls hinv hexact hm
  rw [if_pos ⟨hlen, hfield⟩, ht] at hper
  have e : st'.vec.length - 1 - 1 = st'.vec.length - 2 := by omega
  obtain ⟨hcA, hcB⟩ := colorLoop_spec value mapped G
  have hfilter : ∀ d : List OBPairData,
      (SetData d "color" value).filter (fun p => p.1 == "color") = [("color", value)] := by
    intro d
    simp [SetData, List.filter_append, List.filter_filter]
  refine ⟨value, ?_, ?_, by omega, by omega, ?_, ?_, ?_, ?_, ?_⟩
  rotate_left 5
  · intro k a hk
    constructor
    · rintro ⟨l, hl, hkl⟩
      have hany : mapped.any (fun l => decide (((k + 1 : Nat) : Int) ∈ l)) = true :=
        List.any_eq_true.2 ⟨l, hl, decide_eq_true hkl⟩
      refine ⟨?_, mem_SetData _ _ _, hfilter _⟩
      rw [hcA k, hk, Option.map_some', if_pos hany]
    · intro hno
      have hany : ¬ mapped.any (fun l => decide (((k + 1 : Nat) : Int) ∈ l)) = true := by
        intro h
        obtain ⟨l, hl, hkl⟩ := List.any_eq_true.1 h
        exact hno ⟨l, hl, of_decide_eq_true hkl⟩
      rw [hcA k, hk, Option.map_some', if_neg hany]
  · intro k b hk
    constructor
    · rintro ⟨l, hl, hb1, hb2⟩
      have hany : mapped.any (fun l => decide ((b.beginIdx : Int) ∈ l) &&
          decide ((b.endIdx : Int) ∈ l)) = true :=
        List.any_eq_true.2 ⟨l, hl, by rw [decide_eq_true hb1, decide_eq_true hb2]; rfl⟩
      refine ⟨?_, mem_SetData _ _ _, hfilter _⟩
      rw [hcB, List.getElem?_map, hk, Option.map_some', if_pos hany]
    · intro hno
      have hany : ¬ mapped.any (fun l => decide ((b.beginIdx : Int) ∈ l) &&
          decide ((b.endIdx : Int) ∈ l)) = true := by
        intro h
        obtain ⟨l, hl, hkl⟩ := List.any_eq_true.1 h
        rw [Bool.and_eq_true] at hkl
        exact hno ⟨l, hl, of_decide_eq_true hkl.1, of_decide_eq_true hkl.2⟩
      rw [hcB, List.getElem?_map, hk, Option.map_some', if_neg hany]
  · rw [Do_of_goesOn env ID st st' G txt pConv pc hset]; exact hper
  · rw [e]; exact hv
  · intro hlt
    have : min imol (st'.vec.length - 2) = imol := by omega
    rw [this] at hv; exact hv
  · intro hge
    have : min imol (st'.vec.length - 2) + 1 = st'.vec.length - 1 := by omega
    rw [this] at hv; exact hv
  · intro hq
    have h0 := matching_text_imol env st' G true imol (some mapped) calls hq hm
    subst h0
    refine ⟨rfl, ?_⟩
    have : min 0 (st'.vec.length - 2) + 1 = 1 := by omega
    rw [this] at hv; exact hv

/-- C5 on `three.sdf red blue` (hydrogen, benzene, ethanol) with ethanol as graph:
the third alternative matches, there are two labels, the last one is used,
and the three atoms and two bonds of ethanol carry color=blue. -/
theorem C5_label_selection_witness :
    OpNewS.setUp demoEnv "s" Statics.initial "three.sdf red blue" (some demoConv) =
      some (.goesOn ⟨["three.sdf", "red", "blue"], false, 0, [⟨dihydrogen⟩, ⟨benzene⟩, ⟨ethanol⟩]⟩
        (some (demoConv.AddOption "s"))) ∧
    OpNewS.matching demoEnv
        ⟨["three.sdf", "red", "blue"], false, 0, [⟨dihydrogen⟩, ⟨benzene⟩, ⟨ethanol⟩]⟩ ethanol =
      some (.done true 2 (some [[1, 2, 3]])
        [Call.MapUnique 0, Call.MapUnique 1, Call.MapUnique 2]) ∧
    OpNewS.Do demoEnv "s" Statics.initial ethanol "three.sdf red blue" (some demoConv) =
      some ⟨true, some (OpNewS.colorLoop "blue" [[1, 2, 3]] ethanol),
        ⟨["three.sdf", "red", "blue"], false, 0, [⟨dihydrogen⟩, ⟨benzene⟩, ⟨ethanol⟩]⟩,
        some (demoConv.AddOption "s"), [Call.MapUnique 0, Call.MapUnique 1, Call.MapUnique 2]⟩ ∧
    (OpNewS.colorLoop "blue" [[1, 2, 3]] ethanol).atoms.map (fun a => a.data) =
      [[("color", "blue")], [("color", "blue")], [("color", "blue")]] ∧
    (OpNewS.colorLoop "blue" [[1, 2, 3]] ethanol).bonds.map (fun b => b.data) =
      [[("color", "blue")], [("color", "blue")]] := by
  refine ⟨by decide, by decide, ?_, by decide, by decide⟩
  obtain ⟨value, h1, h2, _⟩ := C5_label_selection demoEnv "s" Statics.initial
    ⟨["three.sdf", "red", "blue"], false, 0, [⟨dihydrogen⟩, ⟨benzene⟩, ⟨ethanol⟩]⟩ ethanol
    "three.sdf red blue" (some demoConv) (some (demoConv.AddOption "s")) 2 [[1, 2, 3]]
    [Call.MapUnique 0, Call.MapUnique 1, Call.MapUnique 2]
    (by decide) rfl rfl (by decide) (by decide) (by decide) (by decide)
  have hv : value = "blue" := by
    have h3 : (["three.sdf", "red", "blue"] : List String)[2]? = some value := h2
    simpa using h3.symm
  rw [hv] at h1
  exact h1

/-- C6: `ExtractSubstruct(G, L)` returns `true` and leaves exactly the atoms of `G`
whose 1-based index occurs in `L`, in their original order and unchanged (same
element, coordinates and data), for every list `L` (duplicates and indices
outside `1..n` allowed); their number is the number of distinct indices of `L`
in `1..n`. `Do` in `extract` mode returns `true` with the graph that
`ExtractSubstruct` leaves for the first match list. -/
theorem C6_extract_leaves_listed_atoms (G : OBMol) (L : List Int) :
    ∃ m', ExtractSubstruct G L = some (true, m') ∧
      m'.atoms =
        ((G.atoms.enum.filter (fun p => decide (((p.1 + 1 : Nat) : Int) ∈ L))).map Prod.snd) ∧
      m'.NumAtoms = (L.dedup.filter (fun i => decide (1 ≤ i ∧ i ≤ (G.NumAtoms : Int)))).length ∧
      ∀ (env : Env) (ID : String) (st st' : Statics) (txt : String)
        (pConv pc : Option OBConversion) (imol : Nat) (others : List (List Int))
        (calls : List Call),
        OpNewS.setUp env ID st txt pConv = some (.goesOn st' pc) →
        st'.inv = false → st'.nPatternAtoms = 0 → st'.vec[1]? = some "extract" →
        OpNewS.matching env st' G = some (.done true imol (some (L :: others)) calls) →
        OpNewS.Do env ID st G txt pConv = some ⟨true, some m', st', pc, calls⟩ := by
  obtain ⟨m', h1, h2⟩ := extract_spec L G
  refine ⟨m', h1, ?_, ?_, ?_⟩
  · rw [h2, keepListed_eq_enumFrom]; rfl
  · unfold OBMol.NumAtoms
    rw [h2, keepListed_count]
  · intro env ID st st' txt pConv pc imol others calls hset hinv hexact hx hm
    have hlen : 2 ≤ st'.vec.length := by
      by_contra hlt
      rw [List.getElem?_eq_none (by omega)] at hx
      exact Option.noConfusion hx
    have hfield : st'.vec[1]? ≠ some "" := by
      rw [hx]; decide
    have hper := perMolecule_of_match env st' G pc imol (L :: others) calls hinv hexact hm
    rw [if_pos ⟨hlen, hfield⟩] at hper
    rw [Do_of_goesOn env ID st st' G txt pConv pc hset, hper]
    simp only [OpNewS.transform, hx, beq_self_eq_true, if_true, h1]

/-- C6 on `c1ccccc1 extract` with toluene: the six ring atoms stay, the methyl
carbon goes. -/
theorem C6_extract_leaves_listed_atoms_witness :
    ExtractSubstruct toluene [1, 2, 3, 4, 5, 6] = some (true, benzene) ∧
    OpNewS.Do demoEnv "s" Statics.initial toluene "c1ccccc1 extract" (some demoConv) =
      some ⟨true, some benzene, ⟨["c1ccccc1", "extract"], false, 0, []⟩,
        some (demoConv.AddOption "s"), [Call.Init "c1ccccc1", Call.Match "c1ccccc1"]⟩ := by
  obtain ⟨m', h1, _, _, h4⟩ := C6_extract_leaves_listed_atoms toluene [1, 2, 3, 4, 5, 6]
  have hb : ExtractSubstruct toluene [1, 2, 3, 4, 5, 6] = some (true, benzene) := by decide
  have hm' : m' = benzene := by
    rw [hb] at h1
    simp only [Option.some.injEq, Prod.mk.injEq, true_and] at h1
    exact h1.symm
  subst hm'
  exact ⟨hb, h4 demoEnv "s" Statics.initial ⟨["c1ccccc1", "extract"], false, 0, []⟩
    "c1ccccc1 extract" (some demoConv) (some (demoConv.AddOption "s")) 0 []
    [Call.Init "c1ccccc1", Call.Match "c1ccccc1"] (by decide) rfl rfl (by decide) (by decide)⟩

/-- C7: `AddDataToSubstruct(G, L, attribute, value)` returns `true`; it leaves the
number of atoms and of bonds as they were; the atom of 1-based index `k+1` is
replaced by itself with the pair set when `k+1` occurs in `L` and is untouched
otherwise; a bond is replaced by itself with the pair set when both its begin
and its end index occur in `L` and is untouched otherwise; setting the pair
puts (attribute, value) in the data and changes neither element, coordinates
nor the bond ends; indices of `L` that resolve to no atom have no effect. On
benzene with `L = 1..6` all 6 atoms and all 6 bonds carry color=green. -/
theorem C7_add_data_to_substruct (G : OBMol) (L : List Int) (attr value : String) :
    (AddDataToSubstruct G L attr value).1 = true ∧
    (AddDataToSubstruct G L attr value).2.atoms.length = G.atoms.length ∧
    (AddDataToSubstruct G L attr value).2.bonds.length = G.bonds.length ∧
    (∀ (k : Nat) (hk : k < G.atoms.length),
      (AddDataToSubstruct G L attr value).2.atoms[k]? =
        some (if ((k + 1 : Nat) : Int) ∈ L then G.atoms[k].SetData attr value else G.atoms[k])) ∧
    (∀ (k : Nat) (hk : k < G.bonds.length),
      (AddDataToSubstruct G L attr value).2.bonds[k]? =
        some (if (G.bonds[k].beginIdx : Int) ∈ L ∧ (G.bonds[k].endIdx : Int) ∈ L
          then G.bonds[k].SetData attr value else G.bonds[k])) ∧
    (∀ a : OBAtom, (attr, value) ∈ (a.SetData attr value).data ∧
      (a.SetData attr value).atomicNum = a.atomicNum ∧ (a.SetData attr value).x = a.x ∧
      (a.SetData attr value).y = a.y ∧ (a.SetData attr value).z = a.z) ∧
    (∀ b : OBBond, (attr, value) ∈ (b.SetData attr value).data ∧
      (b.SetData attr value).beginIdx = b.beginIdx ∧ (b.SetData attr value).endIdx = b.endIdx ∧
      (b.SetData attr value).order = b.order) ∧
    (∀ L' : List Int, (∀ i, i ∈ L' ↔ i ∈ L ∧ 1 ≤ i ∧ i ≤ (G.NumAtoms : Int)) →
      (AddDataToSubstruct G L attr value).2.atoms = (AddDataToSubstruct G L' attr value).2.atoms) ∧
    (AddDataToSubstruct benzene [1, 2, 3, 4, 5, 6] "color" "green").2.atoms.map (fun a => a.data) =
      List.replicate 6 [("color", "green")] ∧
    (AddDataToSubstruct benzene [1, 2, 3, 4, 5, 6] "color" "green").2.bonds.map (fun b => b.data) =
      List.replicate 6 [("color", "green")] := by
  obtain ⟨h1, h2, h3⟩ := addData_spec G L attr value
  have hlenA : (AddDataToSubstruct G L attr value).2.atoms.length = G.atoms.length := by
    apply Nat.le_antisymm
    · by_contra hlt
      have := h2 G.atoms.length
      rw [List.getElem?_eq_getElem (by omega), List.getElem?_eq_none (le_refl _)] at this
      exact Option.noConfusion this
    · by_contra hlt
      have := h2 (AddDataToSubstruct G L attr value).2.atoms.length
      rw [List.getElem?_eq_none (le_refl _), List.getElem?_eq_getElem (by omega)] at this
      exact Option.noConfusion this
  refine ⟨h1, hlenA, by rw [h3, List.length_map], ?_, ?_, ?_, ?_, ?_, by decide, by decide⟩
  · intro k hk
    rw [h2 k, List.getElem?_eq_getElem hk, Option.map_some']
  · intro k hk
    rw [h3, List.getElem?_map, List.getElem?_eq_getElem hk, Option.map_some']
  · intro a
    exact ⟨mem_SetData _ _ _, rfl, rfl, rfl, rfl⟩
  · intro b
    exact ⟨mem_SetData _ _ _, rfl, rfl, rfl⟩
  · intro L' hL'
    obtain ⟨_, h2', _⟩ := addData_spec G L' attr value
    apply List.ext_getElem?
    intro k
    rw [h2 k, h2' k]
    cases hk : G.atoms[k]? with
    | none => rfl
    | some a =>
      have hlt : k < G.atoms.length := by
        by_contra hge
        rw [List.getElem?_eq_none (by omega)] at hk
        exact Option.noConfusion hk
      have hiff : ((k + 1 : Nat) : Int) ∈ L' ↔ ((k + 1 : Nat) : Int) ∈ L := by
        rw [hL']
        unfold OBMol.NumAtoms
        constructor
        · exact fun h => h.1
        · exact fun h => ⟨h, by omega, by omega⟩
      simp only [Option.map_some', hiff]

/-- C8, the code at the failing input: with the first-call text `[H][H] exact` (a
pattern without heavy atom, so the required atom count is 0) and molecular
hydrogen as graph, `Do` keeps the graph and has run the colouring with the
label `exact`: both atoms and the bond carry color=exact, the graph is not
returned as it came. -/
theorem C8_exact_with_no_heavy_atom_is_coloured :
    ∃ r m, OpNewS.Do demoEnv "s" Statics.initial dihydrogen "[H][H] exact" (some demoConv) = some r ∧
      r.statics.vec = ["[H][H]", "exact"] ∧ r.statics.nPatternAtoms = 0 ∧
      r.ret = true ∧ r.pmol = some m ∧ m ≠ dihydrogen ∧
      m.atoms.map (fun a => a.data) = [[("color", "exact")], [("color", "exact")]] ∧
      m.bonds.map (fun b => b.data) = [[("color", "exact")]] :=
  ⟨⟨true, some (OpNewS.colorLoop "exact" [[1, 2]] dihydrogen),
      ⟨["[H][H]", "exact"], false, 0, []⟩, some (demoConv.AddOption "s"),
      [Call.Init "[H][H]", Call.Match "[H][H]"]⟩,
    OpNewS.colorLoop "exact" [[1, 2]] dihydrogen,
    by decide, rfl, rfl, rfl, rfl, by decide, by decide, by decide⟩

/-- C9: when the set-up leaves the inversion flag on, every graph that `Do`
keeps is returned as it came (no atom deleted, no data attached), whatever
the further fields are; and `Do` does return when it has a conversion object
and a pattern to work with. -/
theorem C9_inversion_never_transforms (env : Env) (ID : String) (st st' : Statics)
    (G : OBMol) (txt : String) (pConv pc : Option OBConversion)
    (hset : OpNewS.setUp env ID st txt pConv = some (.goesOn st' pc))
    (hinv : st'.inv = true) :
    (∀ r, OpNewS.Do env ID st G txt pConv = some r → r.ret = true → r.pmol = some G) ∧
    (∀ conv, pc = some conv → st'.queries ≠ [] ∨ st'.vec ≠ [] →
      ∃ r, OpNewS.Do env ID st G txt pConv = some r) := by
  rw [Do_of_goesOn env ID st st' G txt pConv pc hset]
  refine ⟨fun r h hret => perMolecule_inv env st' G pc hinv r h hret, ?_⟩
  intro conv hpc hready
  subst hpc
  obtain ⟨r, h, _⟩ := perMolecule_total env st' G conv hready
  exact ⟨r, h⟩

/-- C9 on `-v` with `c1ccccc1 extract` and water: kept by inversion, nothing is
extracted. -/
theorem C9_inversion_never_transforms_witness :
    OpNewS.setUp demoEnv "v" Statics.initial "c1ccccc1 extract" (some demoConv) =
      some (.goesOn ⟨["c1ccccc1", "extract"], true, 0, []⟩ (some (demoConv.AddOption "v"))) ∧
    OpNewS.Do demoEnv "v" Statics.initial water "c1ccccc1 extract" (some demoConv) =
      some ⟨true, some water, ⟨["c1ccccc1", "extract"], true, 0, []⟩,
        some (demoConv.AddOption "v"), [Call.Init "c1ccccc1", Call.Match "c1ccccc1"]⟩ ∧
    ((∀ r, OpNewS.Do demoEnv "v" Statics.initial water "c1ccccc1 extract" (some demoConv) = some r →
        r.ret = true → r.pmol = some water) ∧
      (∀ conv, some (demoConv.AddOption "v") = some conv →
        ([] : List OBQuery) ≠ [] ∨ ["c1ccccc1", "extract"] ≠ [] →
        ∃ r, OpNewS.Do demoEnv "v" Statics.initial water "c1ccccc1 extract" (some demoConv) =
          some r)) :=
  ⟨by decide, by decide,
    C9_inversion_never_transforms demoEnv "v" Statics.initial
      ⟨["c1ccccc1", "extract"], true, 0, []⟩ water "c1ccccc1 extract" (some demoConv)
      (some (demoConv.AddOption "v")) (by decide) rfl⟩

/-- C10: after a call of `Do` with a parameter text that has a first field `f0`,
the inversion flag is true iff the identity begins with `v` or `f0` begins
with `~`; if `f0` is `~` followed by `p`, the stored field 0 is `p` (one `~`
removed), else it is `f0`; the other fields are stored as they are. Hence,
when `f0` begins with `~`, the pattern compiles, the size test is inactive
and the match set on the graph is empty, the graph is kept as it came. -/
theorem C10_inversion_flag_parsing (env : Env) (ID : String) (st : Statics) (G : OBMol)
    (txt : String) (conv : OBConversion) (f0 : String) (rest : List String)
    (htok : tokenize txt = f0 :: rest) :
    ∃ r, OpNewS.Do env ID st G txt (some conv) = some r ∧
      (r.statics.inv = true ↔ ID.toList.head? = some 'v' ∨ f0.toList.head? = some '~') ∧
      (∀ p, f0.toList = '~' :: p → r.statics.vec = String.mk p :: rest) ∧
      (f0.toList.head? ≠ some '~' → r.statics.vec = f0 :: rest) ∧
      (∀ st' pc, OpNewS.setUp env ID st txt (some conv) = some (.goesOn st' pc) →
        f0.toList.head? = some '~' → patternCompiles env st' → st'.nPatternAtoms = 0 →
        matchSet env st' G = [] → r.ret = true ∧ r.pmol = some G) := by
  have hinvIff : ∀ b : Bool,
      b = (if (f0.toList.head? == some '~') = true then true else ID.toList.head? == some 'v') →
      (b = true ↔ ID.toList.head? = some 'v' ∨ f0.toList.head? = some '~') := by
    intro b hb
    by_cases ht : f0.data.head? = some '~'
    · simp [hb, ht]
    · by_cases hv : ID.data.head? = some 'v'
      · simp [hb, ht, hv]
      · simp [hb, ht, hv]
  have hvecT : ∀ p, f0.toList = '~' :: p →
      (if (f0.toList.head? == some '~') = true then String.mk (f0.toList.drop 1) else f0) =
        String.mk p := by
    intro p hp
    have hp' : f0.data = '~' :: p := hp
    simp [hp']
  have hvecF : f0.toList.head? ≠ some '~' →
      (if (f0.toList.head? == some '~') = true then String.mk (f0.toList.drop 1) else f0) =
        f0 := by
    intro hne
    have hne' : f0.data.head? ≠ some '~' := hne
    simp [hne']
  obtain ⟨n, q, hs | hs⟩ := setUp_first env ID st txt conv f0 rest htok
  · obtain ⟨r, hr, hvec, hinv, _⟩ := perMolecule_total env
      ⟨(if (f0.toList.head? == some '~') = true then String.mk (f0.toList.drop 1) else f0) :: rest,
        (if (f0.toList.head? == some '~') = true then true else ID.toList.head? == some 'v'),
        n, q⟩ G (conv.AddOption ID) (Or.inr (List.cons_ne_nil _ _))
    have hDo := Do_of_goesOn env ID st _ G txt (some conv) _ hs
    refine ⟨r, by rw [hDo]; exact hr, hinvIff _ hinv, ?_, ?_, ?_⟩
    · intro p hp; rw [hvec]; simp only; rw [hvecT p hp]
    · intro hne; rw [hvec]; simp only; rw [hvecF hne]
    · intro st' pc hset htilde hcomp hexact hempty
      rw [hs] at hset
      simp only [Option.some.injEq, SetUp.goesOn.injEq] at hset
      obtain ⟨hst, hpc⟩ := hset
      have htilde' : f0.data.head? = some '~' := htilde
      have hi : st'.inv = true := by rw [← hst]; simp [htilde']
      obtain ⟨r', hr', hret, _, hkeep⟩ :=
        perMolecule_decision env st' G pc hcomp (Or.inl hexact)
      have hr2 : OpNewS.perMolecule env st' G pc = some r := by rw [← hst, ← hpc]; exact hr
      rw [hr2] at hr'
      cases hr'
      have hmd : matched env st' G = false := by
        unfold matched; rw [hempty]; rfl
      have hret' : r.ret = true := by
        rw [hret, hmd, hi]; rfl
      exact ⟨hret', hkeep hi hret'⟩
  · refine ⟨⟨false, none,
      ⟨(if (f0.toList.head? == some '~') = true then String.mk (f0.toList.drop 1) else f0) :: rest,
        (if (f0.toList.head? == some '~') = true then true else ID.toList.head? == some 'v'),
        n, q⟩, some conv.SetOneObjectOnly, []⟩,
      by simp only [OpNewS.Do, hs], hinvIff _ rfl, ?_, ?_, ?_⟩
    · intro p hp; simp only; rw [hvecT p hp]
    · intro hne; simp only; rw [hvecF hne]
    · intro st' pc hset
      rw [hs] at hset
      simp only [Option.some.injEq] at hset
      exact SetUp.noConfusion hset

/-- C10 on `~C` with `-s` and water, a graph without carbon: the flag is on, the
pattern is `C`, the graph is kept. -/
theorem C10_inversion_flag_parsing_witness :
    tokenize "~C" = ["~C"] ∧
    ∃ r, OpNewS.Do demoEnv "s" Statics.initial water "~C" (some demoConv) = some r ∧
      r.statics.inv = true ∧ r.statics.vec = ["C"] ∧ r.ret = true ∧ r.pmol = some water := by
  obtain ⟨r, h1, h2, h3, _, h5⟩ := C10_inversion_flag_parsing demoEnv "s" Statics.initial water
    "~C" demoConv "~C" [] (by decide)
  have hk := h5 ⟨["C"], true, 0, []⟩ (some (demoConv.AddOption "s")) (by decide) (by decide)
    (Or.inr ⟨"C", [], rfl, by decide⟩) rfl (by decide)
  exact ⟨by decide, r, h1, h2.2 (Or.inr (by decide)), h3 ['C'] (by decide), hk.1, hk.2⟩

/-! ## Lemmas for tear-down, configuration errors, idempotence -/

/-- With a conversion object, the set-up block either goes on with a conversion
object or has returned `false` with the molecule deleted and the caller told
to stop. -/
theorem setUp_some_conv (env : Env) (ID : String) (st : Statics) (txt : String)
    (conv : OBConversion) (out : SetUp)
    (hset : OpNewS.setUp env ID st txt (some conv) = some out) :
    (∃ st' c, out = .goesOn st' (some c)) ∨
    (∃ sts, out = .returned ⟨false, none, sts, some conv.SetOneObjectOnly, []⟩) := by
  by_cases hempty : txt.toList.isEmpty = true
  · have h : OpNewS.setUp env ID st txt (some conv) = some (.goesOn st (some conv)) := by
      unfold OpNewS.setUp
      simp only [hempty, if_true]
    rw [h] at hset
    cases hset
    exact Or.inl ⟨st, conv, rfl⟩
  · cases htok : tokenize txt with
    | nil =>
      exfalso
      unfold OpNewS.setUp at hset
      simp only [hempty, Bool.false_eq_true, if_false, htok] at hset
      exact Option.noConfusion hset
    | cons f0 rest =>
      obtain ⟨n, q, hs | hs⟩ := setUp_first env ID st txt conv f0 rest htok
      · rw [hs] at hset
        cases hset
        exact Or.inl ⟨_, _, rfl⟩
      · rw [hs] at hset
        cases hset
        exact Or.inr ⟨_, rfl⟩

/-- The deletion loop deletes nothing when every index up to `i` is listed. -/
theorem extract_loop_all_listed (L : List Int) (i : Nat) (m : OBMol)
    (hall : ∀ k : Nat, 1 ≤ k → k ≤ i → (k : Int) ∈ L) :
    ExtractSubstruct.loop L i m = some m := by
  induction i with
  | zero => rfl
  | succ i ih =>
    have hmem : ((i + 1 : Nat) : Int) ∈ L := hall (i + 1) (by omega) (le_refl _)
    simp only [ExtractSubstruct.loop, hmem, if_true]
    exact ih (fun k h1 h2 => hall k h1 (by omega))

theorem SetData_filter (d : List OBPairData) (attr value : String) :
    (SetData d attr value).filter (fun p => p.1 == attr) = [(attr, value)] := by
  simp [SetData, List.filter_append, List.filter_filter]

theorem SetData_overwrite (d : List OBPairData) (attr value value' : String) :
    SetData (SetData d attr value) attr value' = SetData d attr value' := by
  simp [SetData, List.filter_append, List.filter_filter]

theorem bond_SetData_idem (b : OBBond) (attr value : String) :
    (b.SetData attr value).SetData attr value = b.SetData attr value := by
  simp [OBBond.SetData, SetData_idem]

/-! ## The claims, continued -/

/-- C11, the code at the failing inputs: with the queries of `ring.mol` and the
conversion at its last graph, the query list is still not empty when `Do`
returns for a graph that is dropped (water), extracted (`extract`, toluene),
annotated (`green`, benzene) or rejected by the size test (`exact`,
toluene); it is empty only when the graph is kept without a transform. -/
theorem C11_queries_outlive_last_graph :
    (OpNewS.Do demoEnv "s" Statics.initial water "ring.mol" (some lastConv)).map
        (fun r => (r.ret, r.statics.queries)) = some (false, [⟨benzene⟩]) ∧
    (OpNewS.Do demoEnv "s" Statics.initial toluene "ring.mol extract" (some lastConv)).map
        (fun r => (r.ret, r.statics.queries)) = some (true, [⟨benzene⟩]) ∧
    (OpNewS.Do demoEnv "s" Statics.initial benzene "ring.mol green" (some lastConv)).map
        (fun r => (r.ret, r.statics.queries)) = some (true, [⟨benzene⟩]) ∧
    (OpNewS.Do demoEnv "s" Statics.initial toluene "ring.mol exact" (some lastConv)).map
        (fun r => (r.ret, r.statics.queries)) = some (false, [⟨benzene⟩]) ∧
    (OpNewS.Do demoEnv "s" Statics.initial benzene "ring.mol" (some lastConv)).map
        (fun r => (r.ret, r.statics.queries)) = some (true, []) := by
  refine ⟨by decide, by decide, by decide, by decide, by decide⟩

/-- C12: with a conversion object, when the set-up either has returned (the
exact-mode reference text is unreadable) or goes on with no query from a file,
a field 0 that `sp.Init` rejects and a graph that passes the size test, `Do`
returns `false`, the graph is deleted and the conversion is told to stop
(`SetOneObjectOnly`); neither the mapper nor `sp.Match` has been invoked. -/
theorem C12_configuration_error (env : Env) (ID : String) (st : Statics) (G : OBMol)
    (txt : String) (conv : OBConversion) (out : SetUp)
    (hset : OpNewS.setUp env ID st txt (some conv) = some out)
    (hcfg : ∀ st' pc, out = .goesOn st' pc →
      st'.queries = [] ∧ (∃ vec0 rest, st'.vec = vec0 :: rest ∧ env.smartsInit vec0 = false) ∧
      (st'.nPatternAtoms = 0 ∨ G.NumHvyAtoms = st'.nPatternAtoms)) :
    ∃ r c, OpNewS.Do env ID st G txt (some conv) = some r ∧
      r.ret = false ∧ r.pmol = none ∧ r.pConv = some c ∧ c.OneObjectOnly = true ∧
      (∀ p, Call.Match p ∉ r.calls) ∧ (∀ i, Call.MapUnique i ∉ r.calls) := by
  rcases setUp_some_conv env ID st txt conv out hset with ⟨st', c, hout⟩ | ⟨sts, hout⟩
  · subst hout
    obtain ⟨hq, ⟨vec0, rest, hvec, hinit⟩, hsize⟩ := hcfg st' (some c) rfl
    have hpre : (st'.nPatternAtoms != 0 && G.NumHvyAtoms != st'.nPatternAtoms) = false := by
      rcases hsize with h | h <;> simp [h]
    have hm : OpNewS.matching env st' G = some (.initFailed [.Init vec0]) := by
      simp [OpNewS.matching, hq, hvec, hinit]
    refine ⟨⟨false, none, st', some c.SetOneObjectOnly, [.Init vec0]⟩, c.SetOneObjectOnly,
      ?_, rfl, rfl, rfl, rfl, ?_, ?_⟩
    · rw [Do_of_goesOn env ID st st' G txt (some conv) (some c) hset]
      unfold OpNewS.perMolecule
      simp only [hpre, Bool.false_eq_true, if_false, hm]
    · intro p hp; simp at hp
    · intro i hi; simp at hi
  · subst hout
    refine ⟨⟨false, none, sts, some conv.SetOneObjectOnly, []⟩, conv.SetOneObjectOnly,
      ?_, rfl, rfl, rfl, rfl, ?_, ?_⟩
    · simp only [OpNewS.Do, hset]
    · intro p hp; simp at hp
    · intro i hi; simp at hi

/-- C12 on the text `zzz`, neither a file nor SMARTS, with water. -/
theorem C12_configuration_error_witness :
    OpNewS.setUp demoEnv "s" Statics.initial "zzz" (some demoConv) =
      some (.goesOn ⟨["zzz"], false, 0, []⟩ (some (demoConv.AddOption "s"))) ∧
    demoEnv.smartsInit "zzz" = false ∧
    ∃ r c, OpNewS.Do demoEnv "s" Statics.initial water "zzz" (some demoConv) = some r ∧
      r.ret = false ∧ r.pmol = none ∧ r.pConv = some c ∧ c.OneObjectOnly = true ∧
      (∀ p, Call.Match p ∉ r.calls) ∧ (∀ i, Call.MapUnique i ∉ r.calls) :=
  ⟨by decide, by decide,
    C12_configuration_error demoEnv "s" Statics.initial water "zzz" demoConv
      (.goesOn ⟨["zzz"], false, 0, []⟩ (some (demoConv.AddOption "s"))) (by decide)
      (by
        intro st' pc h
        cases h
        exact ⟨rfl, ⟨"zzz", [], rfl, by decide⟩, Or.inl rfl⟩)⟩

/-- C13: when the list contains every index `1..n` of a graph with `n` atoms,
`ExtractSubstruct` returns `true` and leaves the graph as it was, atoms and
bonds; hence, after an extraction that left `G`, a second extraction with a
list that covers all atoms of `G` gives what the first gave. -/
theorem C13_extract_idempotent (G : OBMol) (L : List Int)
    (hall : ∀ i : Nat, 1 ≤ i → i ≤ G.NumAtoms → (i : Int) ∈ L) :
    ExtractSubstruct G L = some (true, G) ∧
    ∀ (G0 : OBMol) (L0 : List Int), ExtractSubstruct G0 L0 = some (true, G) →
      (ExtractSubstruct G0 L0).bind (fun r => ExtractSubstruct r.2 L) =
        ExtractSubstruct G0 L0 := by
  have h : ExtractSubstruct G L = some (true, G) := by
    simp only [ExtractSubstruct, extract_loop_all_listed L G.NumAtoms G hall]
  refine ⟨h, ?_⟩
  intro G0 L0 h0
  rw [h0, Option.some_bind]
  exact h

/-- C13 on toluene: extracting the ring atoms leaves benzene, and extracting
from benzene with a list that covers `1..6` leaves benzene. -/
theorem C13_extract_idempotent_witness :
    (∀ i : Nat, 1 ≤ i → i ≤ benzene.NumAtoms → (i : Int) ∈ [1, 2, 3, 4, 5, 6, 7]) ∧
    ExtractSubstruct benzene [1, 2, 3, 4, 5, 6, 7] = some (true, benzene) ∧
    (ExtractSubstruct toluene [1, 2, 3, 4, 5, 6]).bind
        (fun r => ExtractSubstruct r.2 [1, 2, 3, 4, 5, 6, 7]) =
      ExtractSubstruct toluene [1, 2, 3, 4, 5, 6] := by
  have hall : ∀ i : Nat, 1 ≤ i → i ≤ benzene.NumAtoms → (i : Int) ∈ [1, 2, 3, 4, 5, 6, 7] := by
    intro i h1 h2
    have h6 : benzene.NumAtoms = 6 := rfl
    rw [h6] at h2
    interval_cases i <;> simp
  obtain ⟨h1, h2⟩ := C13_extract_idempotent benzene [1, 2, 3, 4, 5, 6, 7] hall
  exact ⟨hall, h1, h2 toluene [1, 2, 3, 4, 5, 6] (by decide)⟩

/-- Annotating with `value` and then with `value'` is annotating with `value'`. -/
theorem addData_overwrite (G : OBMol) (L : List Int) (attr value value' : String) :
    AddDataToSubstruct (AddDataToSubstruct G L attr value).2 L attr value' =
      AddDataToSubstruct G L attr value' := by
  obtain ⟨_, hA, hB⟩ := addData_spec G L attr value
  obtain ⟨_, hA', hB'⟩ := addData_spec G L attr value'
  obtain ⟨_, hA2, hB2⟩ := addData_spec (AddDataToSubstruct G L attr value).2 L attr value'
  have hmol : ∀ m1 m2 : OBMol, m1.atoms = m2.atoms → m1.bonds = m2.bonds → m1 = m2 := by
    intro m1 m2 h1 h2
    cases m1; cases m2
    simp only [OBMol.mk.injEq]
    exact ⟨h1, h2⟩
  refine Prod.ext rfl (hmol _ _ ?_ ?_)
  · apply List.ext_getElem?
    intro k
    rw [hA2 k, hA k, hA' k]
    cases G.atoms[k]? with
    | none => rfl
    | some a =>
      simp only [Option.map_some']
      by_cases hk : ((k + 1 : Nat) : Int) ∈ L
      · simp only [hk, if_true, OBAtom.SetData, SetData_overwrite]
      · simp only [hk, if_false]
  · rw [hB2, hB, hB', List.map_map]
    apply List.map_congr_left
    intro b _
    by_cases hb : (b.beginIdx : Int) ∈ L ∧ (b.endIdx : Int) ∈ L
    · simp only [Function.comp, hb, and_self, if_true, OBBond.SetData, SetData_overwrite]
    · simp only [Function.comp, hb, if_false]

/-- C14: with `SetData` replacing an entry of the same attribute, applying
`AddDataToSubstruct(G, L, a, v)` a second time changes nothing; after it every
listed atom and every bond between listed atoms carries exactly one entry of
attribute `a`, with value `v`; and a second annotation with another value
leaves that value alone (last write wins). -/
theorem C14_annotation_deterministic (G : OBMol) (L : List Int) (attr value : String) :
    AddDataToSubstruct (AddDataToSubstruct G L attr value).2 L attr value =
      AddDataToSubstruct G L attr value ∧
    (∀ (k : Nat) (a : OBAtom), (AddDataToSubstruct G L attr value).2.atoms[k]? = some a →
      ((k + 1 : Nat) : Int) ∈ L → a.data.filter (fun p => p.1 == attr) = [(attr, value)]) ∧
    (∀ (k : Nat) (b : OBBond), (AddDataToSubstruct G L attr value).2.bonds[k]? = some b →
      (b.beginIdx : Int) ∈ L → (b.endIdx : Int) ∈ L →
      b.data.filter (fun p => p.1 == attr) = [(attr, value)]) ∧
    (∀ value' : String,
      AddDataToSubstruct (AddDataToSubstruct G L attr value).2 L attr value' =
        AddDataToSubstruct G L attr value') := by
  obtain ⟨_, hA, hB⟩ := addData_spec G L attr value
  refine ⟨addData_overwrite G L attr value value, ?_, ?_, addData_overwrite G L attr value⟩
  · intro k a hk hmem
    rw [hA k] at hk
    cases hg : G.atoms[k]? with
    | none => rw [hg] at hk; exact Option.noConfusion hk
    | some a0 =>
      rw [hg] at hk
      simp only [Option.map_some', hmem, if_true, Option.some.injEq] at hk
      rw [← hk]
      exact SetData_filter _ _ _
  · intro k b hk h1 h2
    rw [hB, List.getElem?_map] at hk
    cases hg : G.bonds[k]? with
    | none => rw [hg] at hk; exact Option.noConfusion hk
    | some b0 =>
      rw [hg] at hk
      simp only [Option.map_some', Option.some.injEq] at hk
      by_cases hb : (b0.beginIdx : Int) ∈ L ∧ (b0.endIdx : Int) ∈ L
      · rw [if_pos hb] at hk
        rw [← hk]
        exact SetData_filter _ _ _
      · rw [if_neg hb] at hk
        rw [← hk] at h1 h2
        exact absurd ⟨h1, h2⟩ hb

/-! ## Lemmas on the bonds left by `ExtractSubstruct` -/

theorem newIdx_succ (L : List Int) (j : Nat) :
    newIdx L (j + 1) = newIdx L j + (if ((j + 1 : Nat) : Int) ∈ L then 1 else 0) := by
  unfold newIdx
  rw [List.range_succ, List.filter_append, List.length_append]
  by_cases h : ((j + 1 : Nat) : Int) ∈ L
  · simp only [List.filter_cons, h, decide_True, if_true, List.filter_nil, List.length_singleton]
  · simp only [List.filter_cons, h, decide_False, Bool.false_eq_true, if_false, List.filter_nil,
      List.length_nil]

theorem newIdx_mono (L : List Int) (j n : Nat) (h : j ≤ n) : newIdx L j ≤ newIdx L n := by
  induction n with
  | zero =>
    have : j = 0 := by omega
    subst this; exact le_refl _
  | succ n ih =>
    by_cases hj : j = n + 1
    · subst hj; exact le_refl _
    · have := ih (by omega)
      rw [newIdx_succ]
      omega

theorem survives_step_in (L : List Int) (i j : Nat) (h : ((i + 1 : Nat) : Int) ∈ L) :
    survives L (i + 1) j = survives L i j := by
  unfold survives
  rw [Bool.eq_iff_iff]
  simp only [Bool.or_eq_true, decide_eq_true_eq]
  constructor
  · rintro ((h0 | h1) | h2)
    · exact Or.inl (Or.inl h0)
    · exact Or.inl (Or.inr (by omega))
    · exact Or.inr h2
  · rintro ((h0 | h1) | h2)
    · exact Or.inl (Or.inl h0)
    · by_cases hj : j = i + 1
      · subst hj; exact Or.inr h
      · exact Or.inl (Or.inr (by omega))
    · exact Or.inr h2

theorem idxAfter_step_in (L : List Int) (i j : Nat) (h : ((i + 1 : Nat) : Int) ∈ L) :
    idxAfter L (i + 1) j = idxAfter L i j := by
  unfold idxAfter
  by_cases hj : j ≤ i
  · have e1 : min (i + 1) j = j := by omega
    have e2 : min i j = j := by omega
    rw [e1, e2]; omega
  · have e1 : min (i + 1) j = i + 1 := by omega
    have e2 : min i j = i := by omega
    rw [e1, e2, newIdx_succ, if_pos h]; omega

theorem survives_step_out (L : List Int) (i j : Nat) (h : ((i + 1 : Nat) : Int) ∉ L) :
    (j != i + 1 && survives L i (shiftIdx (i + 1) j)) = survives L (i + 1) j := by
  unfold survives shiftIdx
  rw [Bool.eq_iff_iff]
  simp only [Bool.and_eq_true, bne_iff_ne, ne_eq, Bool.or_eq_true, decide_eq_true_eq]
  by_cases hgt : j > i + 1
  · rw [if_pos hgt]
    constructor
    · intro _; exact Or.inl (Or.inr hgt)
    · intro _; exact ⟨by omega, Or.inl (Or.inr (by omega))⟩
  · rw [if_neg hgt]
    constructor
    · rintro ⟨hne, (h0 | h1) | h2⟩
      · exact Or.inl (Or.inl h0)
      · exact absurd h1 (by omega)
      · exact Or.inr h2
    · rintro ((h0 | h1) | h2)
      · exact ⟨by omega, Or.inl (Or.inl h0)⟩
      · exact absurd h1 hgt
      · refine ⟨?_, Or.inr h2⟩
        intro hj; subst hj; exact h h2

theorem idxAfter_step_out (L : List Int) (i j : Nat) (h : ((i + 1 : Nat) : Int) ∉ L)
    (hj : j ≠ i + 1) : idxAfter L i (shiftIdx (i + 1) j) = idxAfter L (i + 1) j := by
  unfold idxAfter shiftIdx
  by_cases hgt : j > i + 1
  · have e1 : min i (j - 1) = i := by omega
    have e2 : min (i + 1) j = i + 1 := by omega
    simp only [hgt, if_true]
    rw [e1, e2, newIdx_succ, if_neg h]; omega
  · have e1 : min i j = j := by omega
    have e2 : min (i + 1) j = j := by omega
    simp only [hgt, if_false]
    rw [e1, e2]; omega

theorem filter_map_congr {α β : Type} (l : List α) (p q : α → Bool) (f g : α → β)
    (hp : ∀ a ∈ l, p a = q a) (hf : ∀ a ∈ l, q a = true → f a = g a) :
    (l.filter p).map f = (l.filter q).map g := by
  induction l with
  | nil => rfl
  | cons a as ih =>
    have hpa := hp a (List.mem_cons_self _ _)
    have ih' := ih (fun x hx => hp x (List.mem_cons_of_mem _ hx))
      (fun x hx => hf x (List.mem_cons_of_mem _ hx))
    rw [List.filter_cons, List.filter_cons, hpa]
    by_cases hq : q a = true
    · simp only [hq, if_true, List.map_cons, ih', hf a (List.mem_cons_self _ _) hq]
    · simp only [hq, Bool.false_eq_true, if_false, ih']

/-- Invariant of the deletion loop for the bonds: a bond stays when both its
atoms survive, and its atom indices are the ones the atoms have afterwards. -/
theorem extract_loop_bonds (L : List Int) (i : Nat) (m : OBMol) (hi : i ≤ m.atoms.length) :
    ∃ m', ExtractSubstruct.loop L i m = some m' ∧
      m'.bonds = (m.bonds.filter
        (fun b => survives L i b.beginIdx && survives L i b.endIdx)).map
          (OBBond.reindex (idxAfter L i)) := by
  induction i generalizing m with
  | zero =>
    refine ⟨m, rfl, ?_⟩
    have h := filter_map_congr m.bonds (fun _ => true)
      (fun b => survives L 0 b.beginIdx && survives L 0 b.endIdx) id
      (OBBond.reindex (idxAfter L 0))
      (by
        intro b _
        have hs : ∀ j, survives L 0 j = true := by
          intro j
          unfold survives
          by_cases hj : j = 0
          · simp [hj]
          · have : 0 < j := by omega
            simp [this]
        show true = (survives L 0 b.beginIdx && survives L 0 b.endIdx)
        rw [hs, hs]; rfl)
      (by
        intro b _ _
        have hid : ∀ j, idxAfter L 0 j = j := by
          intro j; unfold idxAfter newIdx; simp
        simp only [OBBond.reindex, hid, id])
    simpa using h
  | succ i ih =>
    by_cases hmem : ((i + 1 : Nat) : Int) ∈ L
    · obtain ⟨m', h1, h2⟩ := ih m (by omega)
      refine ⟨m', ?_, ?_⟩
      · simp only [ExtractSubstruct.loop, hmem, if_true]; exact h1
      · rw [h2]
        apply filter_map_congr
        · intro b _
          rw [survives_step_in L i _ hmem, survives_step_in L i _ hmem]
        · intro b _ _
          simp only [OBBond.reindex, idxAfter_step_in L i _ hmem]
    · have hget : m.GetAtom ((i + 1 : Nat) : Int) = some i := by
        unfold OBMol.GetAtom OBMol.NumAtoms
        have h1 : ¬ (((i + 1 : Nat) : Int) < 1 ∨ ((i + 1 : Nat) : Int) > (m.atoms.length : Int)) := by
          omega
        rw [if_neg h1]; simp
      have hdelA : (m.DeleteAtom i).atoms.length = m.atoms.length - 1 := by
        simp [OBMol.DeleteAtom, List.length_eraseIdx]
        omega
      have hdelB : (m.DeleteAtom i).bonds =
          (m.bonds.filter (fun b => b.beginIdx != i + 1 && b.endIdx != i + 1)).map
            (OBBond.reindex (shiftIdx (i + 1))) := rfl
      obtain ⟨m', h1, h2⟩ := ih (m.DeleteAtom i) (by rw [hdelA]; omega)
      refine ⟨m', ?_, ?_⟩
      · simp only [ExtractSubstruct.loop, hmem, if_false, hget]; exact h1
      · rw [h2, hdelB, List.filter_map, List.map_map, List.filter_filter]
        apply filter_map_congr
        · intro b _
          rw [← survives_step_out L i b.beginIdx hmem, ← survives_step_out L i b.endIdx hmem]
          simp only [Function.comp, OBBond.reindex]
          cases (b.beginIdx != i + 1) <;> cases (b.endIdx != i + 1) <;>
            cases survives L i (shiftIdx (i + 1) b.beginIdx) <;>
            cases survives L i (shiftIdx (i + 1) b.endIdx) <;> rfl
        · intro b _ hq
          have hb : b.beginIdx ≠ i + 1 := by
            intro hb
            have := survives_step_out L i b.beginIdx hmem
            rw [hb] at this hq
            simp at this
            rw [this] at hq
            simp at hq
          have he : b.endIdx ≠ i + 1 := by
            intro he
            have := survives_step_out L i b.endIdx hmem
            rw [he] at this hq
            simp at this
            rw [this] at hq
            simp at hq
          simp only [Function.comp, OBBond.reindex, idxAfter_step_out L i _ hmem hb,
            idxAfter_step_out L i _ hmem he]

/-- Place of a listed atom among the retained ones: the atom `k` places after
`start` sits after as many retained atoms as there are listed indices before
it. -/
theorem keepListed_getElem (L : List Int) (s : Nat) (xs : List OBAtom) (k : Nat)
    (hmem : ((s + k + 1 : Nat) : Int) ∈ L) :
    (keepListed L s xs)[((List.range' s k).filter
      (fun i => decide (((i + 1 : Nat) : Int) ∈ L))).length]? = xs[k]? := by
  induction xs generalizing s k with
  | nil => simp [keepListed]
  | cons a rest ih =>
    cases k with
    | zero =>
      have h0 : ((s + 1 : Nat) : Int) ∈ L := hmem
      simp only [List.range'_zero, List.filter_nil, List.length_nil, keepListed, h0, if_true,
        List.getElem?_cons_zero]
    | succ k =>
      have hmem' : ((s + 1 + k + 1 : Nat) : Int) ∈ L := by
        have e : s + 1 + k + 1 = s + (k + 1) + 1 := by omega
        rw [e]; exact hmem
      have ih' := ih (s + 1) k hmem'
      rw [List.range'_succ, List.filter_cons, List.getElem?_cons_succ, keepListed]
      by_cases h : ((s + 1 : Nat) : Int) ∈ L
      · simp only [h, decide_True, if_true, List.length_cons, List.getElem?_cons_succ]
        exact ih'
      · simp only [h, decide_False, Bool.false_eq_true, if_false]
        exact ih'

/-- C15: for a graph whose bonds join atoms of the graph, with `DeleteAtom`
removing an atom together with its bonds, `ExtractSubstruct(G, L)` leaves,
in their order, the bonds of `G` whose two atom indices both occur in `L`,
with each index `j` replaced by the new index of that atom (the number of
listed indices in `1..j`); every bond left joins two atoms that are left,
and the atom at the new index is the atom that was at `j`. -/
theorem C15_extract_bonds (G : OBMol) (L : List Int)
    (hwf : ∀ b ∈ G.bonds, 1 ≤ b.beginIdx ∧ b.beginIdx ≤ G.NumAtoms ∧
      1 ≤ b.endIdx ∧ b.endIdx ≤ G.NumAtoms) :
    ∃ m', ExtractSubstruct G L = some (true, m') ∧
      m'.bonds = (G.bonds.filter
        (fun b => decide ((b.beginIdx : Int) ∈ L) && decide ((b.endIdx : Int) ∈ L))).map
          (OBBond.reindex (newIdx L)) ∧
      m'.NumAtoms = newIdx L G.NumAtoms ∧
      (∀ b ∈ m'.bonds, 1 ≤ b.beginIdx ∧ b.beginIdx ≤ m'.NumAtoms ∧
        1 ≤ b.endIdx ∧ b.endIdx ≤ m'.NumAtoms) ∧
      (∀ j : Nat, 1 ≤ j → j ≤ G.NumAtoms → (j : Int) ∈ L →
        m'.atoms[newIdx L j - 1]? = G.atoms[j - 1]?) := by
  obtain ⟨m', h1, h2⟩ := extract_loop_spec L G.atoms.length G (le_refl _)
  obtain ⟨m'', h1', h2'⟩ := extract_loop_bonds L G.atoms.length G (le_refl _)
  rw [h1] at h1'
  cases h1'
  have hatoms : m'.atoms = keepListed L 0 G.atoms := by simpa using h2
  have hnum : m'.NumAtoms = newIdx L G.NumAtoms := by
    unfold OBMol.NumAtoms newIdx
    rw [hatoms, keepListed_length, List.range_eq_range']
  have hbonds : m'.bonds = (G.bonds.filter
      (fun b => decide ((b.beginIdx : Int) ∈ L) && decide ((b.endIdx : Int) ∈ L))).map
        (OBBond.reindex (newIdx L)) := by
    rw [h2']
    apply filter_map_congr
    · intro b hb
      obtain ⟨hb1, hb2, he1, he2⟩ := hwf b hb
      unfold OBMol.NumAtoms at hb2 he2
      have hs : ∀ j : Nat, 1 ≤ j → j ≤ G.atoms.length →
          survives L G.atoms.length j = decide ((j : Int) ∈ L) := by
        intro j hj1 hj2
        unfold survives
        have e1 : decide (j = 0) = false := by simp; omega
        have e2 : decide (G.atoms.length < j) = false := by simp; omega
        rw [e1, e2]; rfl
      show (survives L G.atoms.length b.beginIdx && survives L G.atoms.length b.endIdx) = _
      rw [hs _ hb1 hb2, hs _ he1 he2]
    · intro b hb _
      obtain ⟨hb1, hb2, he1, he2⟩ := hwf b hb
      unfold OBMol.NumAtoms at hb2 he2
      have hi : ∀ j : Nat, j ≤ G.atoms.length → idxAfter L G.atoms.length j = newIdx L j := by
        intro j hj
        unfold idxAfter
        have e : min G.atoms.length j = j := by omega
        rw [e]; omega
      simp only [OBBond.reindex, hi _ hb2, hi _ he2]
  have hrank : ∀ j : Nat, 1 ≤ j → j ≤ G.NumAtoms → (j : Int) ∈ L →
      1 ≤ newIdx L j ∧ newIdx L j ≤ m'.NumAtoms := by
    intro j hj1 hj2 hjL
    obtain ⟨k, rfl⟩ : ∃ k, j = k + 1 := ⟨j - 1, by omega⟩
    rw [hnum]
    refine ⟨?_, newIdx_mono L _ _ hj2⟩
    rw [newIdx_succ, if_pos hjL]; omega
  refine ⟨m', by simp only [ExtractSubstruct, OBMol.NumAtoms, h1], hbonds, hnum, ?_, ?_⟩
  · intro b hb
    rw [hbonds, List.mem_map] at hb
    obtain ⟨b0, hb0, rfl⟩ := hb
    rw [List.mem_filter] at hb0
    obtain ⟨hb0m, hb0L⟩ := hb0
    simp only [Bool.and_eq_true, decide_eq_true_eq] at hb0L
    obtain ⟨hb1, hb2, he1, he2⟩ := hwf b0 hb0m
    obtain ⟨r1, r2⟩ := hrank _ hb1 hb2 hb0L.1
    obtain ⟨r3, r4⟩ := hrank _ he1 he2 hb0L.2
    exact ⟨r1, r2, r3, r4⟩
  · intro j hj1 hj2 hjL
    obtain ⟨k, rfl⟩ : ∃ k, j = k + 1 := ⟨j - 1, by omega⟩
    have hmem : ((0 + k + 1 : Nat) : Int) ∈ L := by
      have e : 0 + k + 1 = k + 1 := by omega
      rw [e]; exact hjL
    have hget := keepListed_getElem L 0 G.atoms k hmem
    rw [← List.range_eq_range'] at hget
    have e : newIdx L (k + 1) - 1 = newIdx L k := by
      rw [newIdx_succ, if_pos hjL]; omega
    rw [e, hatoms]
    exact hget

/-- C15 on the 10-atom graph with the five-membered ring on the even indices:
the ring atoms and the five ring bonds are left, renumbered `1..5`. -/
theorem C15_extract_bonds_witness :
    (∀ b ∈ pentamethylcyclopentane.bonds,
      1 ≤ b.beginIdx ∧ b.beginIdx ≤ pentamethylcyclopentane.NumAtoms ∧
      1 ≤ b.endIdx ∧ b.endIdx ≤ pentamethylcyclopentane.NumAtoms) ∧
    ExtractSubstruct pentamethylcyclopentane [2, 4, 6, 8, 10] = some (true, cyclopentane) ∧
    cyclopentane.bonds = (pentamethylcyclopentane.bonds.filter
      (fun b => decide ((b.beginIdx : Int) ∈ [2, 4, 6, 8, 10]) &&
        decide ((b.endIdx : Int) ∈ [2, 4, 6, 8, 10]))).map
          (OBBond.reindex (newIdx [2, 4, 6, 8, 10])) ∧
    cyclopentane.NumAtoms = 5 := by
  have hwf : ∀ b ∈ pentamethylcyclopentane.bonds,
      1 ≤ b.beginIdx ∧ b.beginIdx ≤ pentamethylcyclopentane.NumAtoms ∧
      1 ≤ b.endIdx ∧ b.endIdx ≤ pentamethylcyclopentane.NumAtoms := by decide
  obtain ⟨m', h1, h2, _⟩ := C15_extract_bonds pentamethylcyclopentane [2, 4, 6, 8, 10] hwf
  have hc : ExtractSubstruct pentamethylcyclopentane [2, 4, 6, 8, 10] =
      some (true, cyclopentane) := by decide
  have hm' : m' = cyclopentane := by
    rw [hc] at h1
    simp only [Option.some.injEq, Prod.mk.injEq, true_and] at h1
    exact h1.symm
  subst hm'
  exact ⟨hwf, hc, h2, rfl⟩

/-! ## Lemmas on pattern resolution -/

/-- The `do ... while` loop appends one query per molecule, in order, and leaves
the heavy-atom count of the last molecule. -/
theorem makeQueries_loop_spec (ms : List OBMol) (m : OBMol) (queries : List OBQuery) (n : Nat) :
    MakeQueriesFromMolInFile.loop (m :: ms) queries n =
      (queries ++ (m :: ms).map CompileMoleculeQuery,
        ((m :: ms).getLast (List.cons_ne_nil m ms)).NumHvyAtoms) := by
  induction ms generalizing m queries n with
  | nil => simp [MakeQueriesFromMolInFile.loop]
  | cons m' ms ih =>
    rw [MakeQueriesFromMolInFile.loop, ih m' (queries ++ [CompileMoleculeQuery m]) m.NumHvyAtoms]
    simp [List.getLast_cons_cons]

/-- The three outcomes of `MakeQueriesFromMolInFile`. -/
theorem makeQueries_cases (env : Env) (queries : List OBQuery) (filename : String) (n : Nat) :
    MakeQueriesFromMolInFile env queries filename n = (false, queries, n) ∨
    ∃ m ms, env.readFile filename = some (m, ms) ∧ m.NumAtoms ≠ 0 ∧
      filename.toList ≠ [] ∧ '.' ∈ filename.toList ∧
      MakeQueriesFromMolInFile env queries filename n =
        (true, queries ++ (m :: ms).map CompileMoleculeQuery,
          ((m :: ms).getLast (List.cons_ne_nil m ms)).NumHvyAtoms) := by
  unfold MakeQueriesFromMolInFile
  by_cases hname : (filename.toList.isEmpty || !(filename.toList.contains '.')) = true
  · left; simp only [hname, if_true]
  · simp only [hname, Bool.false_eq_true, if_false]
    cases hread : env.readFile filename with
    | none => left; rfl
    | some r =>
      obtain ⟨m, ms⟩ := r
      by_cases h0 : (m.NumAtoms == 0) = true
      · left; simp only [h0, if_true]
      · right
        refine ⟨m, ms, rfl, ?_, ?_, ?_, ?_⟩
        · intro h; rw [h] at h0; exact h0 rfl
        · intro h; rw [h] at hname; exact hname rfl
        · have h1 : (filename.toList.contains '.') = true := by
            cases hc : filename.toList.contains '.' with
            | true => rfl
            | false => rw [hc] at hname; simp at hname
          simpa using h1
        · simp only [h0, Bool.false_eq_true, if_false, makeQueries_loop_spec]

theorem queryLoop_calls (env : Env) (G : OBMol) (qs : List OBQuery) (imol : Nat)
    (calls : List Call) (h : ∀ c ∈ calls, ∃ i, c = Call.MapUnique i) :
    ∀ c ∈ (OpNewS.queryLoop env G qs imol calls).calls, ∃ i, c = Call.MapUnique i := by
  induction qs generalizing imol calls with
  | nil => exact h
  | cons q rest ih =>
    have h' : ∀ c ∈ calls ++ [Call.MapUnique imol], ∃ i, c = Call.MapUnique i := by
      intro c hc
      rw [List.mem_append] at hc
      rcases hc with hc | hc
      · exact h c hc
      · exact ⟨imol, by simpa using hc⟩
    rw [OpNewS.queryLoop]
    by_cases hq : (!(env.MapUnique q G).isEmpty) = true
    · simp only [hq, if_true]; exact h'
    · simp only [hq, Bool.false_eq_true, if_false]
      exact ih (imol + 1) _ h'

/-- What the set-up block stores on a first call with a conversion object: the
fields with one leading `~` removed from field 0, and the query list left by
`MakeQueriesFromMolInFile` on that field. -/
theorem setUp_first_queries (env : Env) (ID : String) (st : Statics) (txt : String)
    (pConv : Option OBConversion) (f0 : String) (rest : List String) (out : SetUp)
    (htok : tokenize txt = f0 :: rest)
    (hset : OpNewS.setUp env ID st txt pConv = some out) :
    ∃ n, (∃ pc, out = .goesOn ⟨stripTilde f0 :: rest,
        (if f0.toList.head? == some '~' then true else ID.toList.head? == some 'v'), n,
        (MakeQueriesFromMolInFile env st.queries (stripTilde f0) st.nPatternAtoms).2.1⟩ pc) ∨
      (∃ pc, out = .returned ⟨false, none, ⟨stripTilde f0 :: rest,
        (if f0.toList.head? == some '~' then true else ID.toList.head? == some 'v'), n,
        (MakeQueriesFromMolInFile env st.queries (stripTilde f0) st.nPatternAtoms).2.1⟩,
        pc, []⟩) := by
  have hne := tokenize_ne_nil_text txt f0 rest htok
  unfold OpNewS.setUp at hset
  simp only [hne, Bool.false_eq_true, if_false, htok] at hset
  unfold stripTilde
  generalize (if (f0.toList.head? == some '~') = true then String.mk (f0.toList.drop 1)
    else f0) = vec0 at hset ⊢
  generalize (if (f0.toList.head? == some '~') = true then true
    else ID.toList.head? == some 'v') = inv at hset ⊢
  cases pConv with
  | none =>
    exfalso
    split at hset
    · split at hset
      · split at hset <;> exact Option.noConfusion hset
      · exact Option.noConfusion hset
    · exact Option.noConfusion hset
  | some conv =>
    split at hset
    · split at hset
      · split at hset
        · cases hset; exact ⟨_, Or.inr ⟨_, rfl⟩⟩
        · cases hset; exact ⟨_, Or.inl ⟨_, rfl⟩⟩
      · cases hset; exact ⟨_, Or.inl ⟨_, rfl⟩⟩
    · cases hset; exact ⟨_, Or.inl ⟨_, rfl⟩⟩

/-- C16: `MakeQueriesFromMolInFile` returns `true` only with a file that was
read, after appending one compiled query per molecule of the file, in order
(the list has grown); when it returns `false` the query list and the atom
count are as they were; for an empty file name and for a name without `.` it
returns `false` whatever the file reader would deliver. The set-up stores the
query list it leaves, and the matching block then uses the mapper only when
the list is not empty and never the mapper when it is empty. -/
theorem C16_pattern_resolution (env : Env) (queries : List OBQuery) (filename : String)
    (n : Nat) :
    ((MakeQueriesFromMolInFile env queries filename n).1 = true →
      ∃ m ms, env.readFile filename = some (m, ms) ∧
        (MakeQueriesFromMolInFile env queries filename n).2.1 =
          queries ++ (m :: ms).map CompileMoleculeQuery ∧
        queries.length < (MakeQueriesFromMolInFile env queries filename n).2.1.length) ∧
    ((MakeQueriesFromMolInFile env queries filename n).1 = false →
      (MakeQueriesFromMolInFile env queries filename n).2.1 = queries ∧
      (MakeQueriesFromMolInFile env queries filename n).2.2 = n) ∧
    (filename.toList = [] ∨ '.' ∉ filename.toList →
      ∀ env' : Env, MakeQueriesFromMolInFile env' queries filename n = (false, queries, n)) ∧
    (∀ (ID : String) (st : Statics) (txt : String) (pConv pc : Option OBConversion)
      (st' : Statics) (f0 : String) (rest : List String),
      tokenize txt = f0 :: rest → OpNewS.setUp env ID st txt pConv = some (.goesOn st' pc) →
      st'.queries =
        (MakeQueriesFromMolInFile env st.queries (stripTilde f0) st.nPatternAtoms).2.1) ∧
    (∀ (st : Statics) (G : OBMol) (M : Matching), OpNewS.matching env st G = some M →
      (st.queries ≠ [] → ∀ c ∈ M.calls, ∃ i, c = Call.MapUnique i) ∧
      (st.queries = [] → ∀ c ∈ M.calls, ∀ i, c ≠ Call.MapUnique i)) := by
  refine ⟨?_, ?_, ?_, ?_, ?_⟩
  · intro htrue
    rcases makeQueries_cases env queries filename n with h | ⟨m, ms, hread, _, _, _, h⟩
    · rw [h] at htrue; exact absurd htrue (by simp)
    · refine ⟨m, ms, hread, by rw [h], ?_⟩
      rw [h]; simp
  · intro hfalse
    rcases makeQueries_cases env queries filename n with h | ⟨m, ms, _, _, _, _, h⟩
    · rw [h]; exact ⟨rfl, rfl⟩
    · rw [h] at hfalse; exact absurd hfalse (by simp)
  · intro hname env'
    rcases makeQueries_cases env' queries filename n with h | ⟨m, ms, _, _, h1, h2, _⟩
    · exact h
    · rcases hname with hn | hn
      · exact absurd hn h1
      · exact absurd h2 hn
  · intro ID st txt pConv pc st' f0 rest htok hset
    obtain ⟨k, ⟨pc', h⟩ | ⟨pc', h⟩⟩ := setUp_first_queries env ID st txt pConv f0 rest _ htok hset
    · cases h; rfl
    · exact SetUp.noConfusion h
  · intro st G M hM
    unfold OpNewS.matching at hM
    constructor
    · intro hq
      have hqe : st.queries.isEmpty = false := by
        cases hqs : st.queries with
        | nil => exact absurd hqs hq
        | cons a as => rfl
      simp only [hqe, Bool.not_false, if_true, Option.some.injEq] at hM
      rw [← hM]
      exact queryLoop_calls env G st.queries 0 [] (fun c hc => absurd hc (List.not_mem_nil c))
    · intro hq c hc i hci
      subst hci
      simp only [hq, List.isEmpty_nil, Bool.not_true, Bool.false_eq_true, if_false] at hM
      split at hM
      · exact Option.noConfusion hM
      · split at hM
        · cases hM; simp [Matching.calls] at hc
        · split at hM <;> (cases hM; simp [Matching.calls] at hc)

/-- A query loop that ends with a match has stopped at the first query with a
mapping, and hands on the converted mappings of that query. -/
theorem queryLoop_done_true (env : Env) (G : OBMol) (qs : List OBQuery) (imol0 : Nat)
    (calls0 : List Call) (imol : Nat) (pm : Option (List (List Int))) (calls : List Call)
    (h : OpNewS.queryLoop env G qs imol0 calls0 = .done true imol pm calls) :
    ∃ pre q post, qs = pre ++ q :: post ∧ imol = imol0 + pre.length ∧
      pm = some (toAtomVecs (env.MapUnique q G)) ∧ env.MapUnique q G ≠ [] ∧
      ∀ q' ∈ pre, env.MapUnique q' G = [] := by
  induction qs generalizing imol0 calls0 with
  | nil =>
    simp only [OpNewS.queryLoop, Matching.done.injEq] at h
    exact absurd h.1 (by decide)
  | cons q rest ih =>
    rw [OpNewS.queryLoop] at h
    by_cases hq : (env.MapUnique q G).isEmpty = true
    · simp only [hq, Bool.not_true, Bool.false_eq_true, if_false] at h
      obtain ⟨pre, q', post, h1, h2, h3, h4, h5⟩ := ih (imol0 + 1) _ h
      have hq0 : env.MapUnique q G = [] := by simpa using hq
      refine ⟨q :: pre, q', post, by rw [h1]; rfl, by rw [h2, List.length_cons]; omega, h3, h4, ?_⟩
      intro x hx
      rcases List.mem_cons.1 hx with hx | hx
      · rw [hx]; exact hq0
      · exact h5 x hx
    · have hq' : (env.MapUnique q G).isEmpty = false := by simpa using hq
      simp only [hq', Bool.not_false, if_true, Matching.done.injEq, true_and] at h
      refine ⟨[], q, rest, rfl, by simpa using h.1.symm, h.2.1.symm, ?_,
        fun x hx => absurd hx (List.not_mem_nil x)⟩
      intro h0; rw [h0] at hq'; exact absurd hq' (by decide)

/-- A matching block that ends without a match leaves `pMappedAtoms` null. -/
theorem matching_no_match (env : Env) (st : Statics) (G : OBMol) (imol : Nat)
    (pm : Option (List (List Int))) (calls : List Call)
    (h : OpNewS.matching env st G = some (.done false imol pm calls)) : pm = none := by
  unfold OpNewS.matching at h
  by_cases hq : st.queries.isEmpty = true
  · simp only [hq, Bool.not_true, Bool.false_eq_true, if_false] at h
    split at h
    · exact Option.noConfusion h
    · split at h
      · simp only [Option.some.injEq] at h; exact Matching.noConfusion h
      · split at h
        · simp only [Option.some.injEq, Matching.done.injEq] at h
          exact absurd h.1 (by decide)
        · simp only [Option.some.injEq, Matching.done.injEq] at h
          exact h.2.2.1.symm
  · have hq' : st.queries.isEmpty = false := by simpa using hq
    simp only [hq', Bool.not_false, if_true, Option.some.injEq] at h
    obtain ⟨i, calls', hf⟩ := queryLoop_find env G st.queries 0 []
    rw [hf] at h
    simp only [Matching.done.injEq] at h
    obtain ⟨h1, _, h3, _⟩ := h
    cases hfind : st.queries.find? (fun q => !(env.MapUnique q G).isEmpty) with
    | none => rw [hfind] at h3; exact h3.symm
    | some q => rw [hfind] at h1; exact absurd h1 (by simp)

/-- C17: the list of match lists made from the mappings of a query has one entry
per mapping, in the same order, entry `k` being the targets of mapping `k`
each plus 1, in their order; every index produced is at least 1, and it
resolves to an atom of the graph when the targets are 0-based positions of
the graph. With queries from a file, a matching block that ends with a match
hands on exactly this list for the query of index `imol`. -/
theorem C17_one_based_conversion (mappings : List Mapping) (G : OBMol) :
    (toAtomVecs mappings).length = mappings.length ∧
    (∀ (k : Nat) (hk : k < mappings.length),
      (toAtomVecs mappings)[k]? = some (mappings[k].map (fun p => (p.2 : Int) + 1))) ∧
    (∀ (k : Nat) (hk : k < mappings.length),
      ((mappings[k].map (fun p => (p.2 : Int) + 1)).length = mappings[k].length)) ∧
    (∀ l ∈ toAtomVecs mappings, ∀ idx ∈ l, 1 ≤ idx) ∧
    ((∀ m ∈ mappings, ∀ p ∈ m, p.2 < G.NumAtoms) →
      ∀ l ∈ toAtomVecs mappings, ∀ idx ∈ l, ∃ pAtom, G.GetAtom idx = some pAtom ∧
        (pAtom : Int) + 1 = idx ∧ pAtom < G.NumAtoms) ∧
    (∀ (env : Env) (st : Statics) (imol : Nat) (pm : Option (List (List Int)))
      (calls : List Call), st.queries ≠ [] →
      OpNewS.matching env st G = some (.done true imol pm calls) →
      ∃ q, st.queries[imol]? = some q ∧ pm = some (toAtomVecs (env.MapUnique q G))) := by
  refine ⟨by simp [toAtomVecs], ?_, ?_, ?_, ?_, ?_⟩
  · intro k hk
    simp only [toAtomVecs, List.getElem?_map, List.getElem?_eq_getElem hk, Option.map_some',
      Nat.cast_add, Nat.cast_one]
  · intro k hk
    rw [List.length_map]
  · intro l hl idx hidx
    simp only [toAtomVecs, List.mem_map] at hl
    obtain ⟨m, _, rfl⟩ := hl
    rw [List.mem_map] at hidx
    obtain ⟨p, _, rfl⟩ := hidx
    omega
  · intro hvalid l hl idx hidx
    simp only [toAtomVecs, List.mem_map] at hl
    obtain ⟨m, hm, rfl⟩ := hl
    rw [List.mem_map] at hidx
    obtain ⟨p, hp, rfl⟩ := hidx
    have hlt := hvalid m hm p hp
    refine ⟨p.2, ?_, by omega, hlt⟩
    unfold OBMol.GetAtom
    have h1 : ¬ (((p.2 + 1 : Nat) : Int) < 1 ∨ ((p.2 + 1 : Nat) : Int) > (G.NumAtoms : Int)) := by
      omega
    rw [if_neg h1]
    congr 1
    omega
  · intro env st imol pm calls hq hm
    have hqe : st.queries.isEmpty = false := by
      cases hqs : st.queries with
      | nil => exact absurd hqs hq
      | cons a as => rfl
    unfold OpNewS.matching at hm
    simp only [hqe, Bool.not_false, if_true, Option.some.injEq] at hm
    obtain ⟨pre, q, post, h1, h2, h3, _, _⟩ :=
      queryLoop_done_true env G st.queries 0 [] imol pm calls hm
    refine ⟨q, ?_, h3⟩
    rw [h1, h2, Nat.zero_add, List.getElem?_append_right (le_refl _)]
    simp

/-- C18: on a call of `Do` that gets past the set-up, the size test and the
matching block, if execution reaches the transform block (the graph is not
dropped and the condition of line 279 holds) then a match was found,
inversion is off and `pMappedAtoms` points to a non-empty list of match
lists, so that `Do` is the transform block on defined data and returns `true`
with a graph; and when no match was found `pMappedAtoms` is null and `Do`
returns without entering the transform block. -/
theorem C18_transform_is_safe (env : Env) (ID : String) (st st' : Statics) (G : OBMol)
    (txt : String) (pConv pc : Option OBConversion) (isMatch : Bool) (imol : Nat)
    (pm : Option (List (List Int))) (calls : List Call)
    (hset : OpNewS.setUp env ID st txt pConv = some (.goesOn st' pc))
    (hsize : (st'.nPatternAtoms != 0 && G.NumHvyAtoms != st'.nPatternAtoms) = false)
    (hm : OpNewS.matching env st' G = some (.done isMatch imol pm calls)) :
    (((!isMatch && !st'.inv) || (isMatch && st'.inv)) = false →
      (!st'.inv && decide (st'.vec.length ≥ 2) && st'.vec[1]? != some "" &&
        st'.nPatternAtoms == 0) = true →
      isMatch = true ∧ st'.inv = false ∧ (∃ first others, pm = some (first :: others)) ∧
      OpNewS.Do env ID st G txt pConv = OpNewS.transform st' G imol pm pc calls ∧
      ∃ m', OpNewS.Do env ID st G txt pConv = some ⟨true, some m', st', pc, calls⟩) ∧
    (isMatch = false → pm = none ∧
      (OpNewS.Do env ID st G txt pConv = some ⟨false, none, st', pc, calls⟩ ∨
        OpNewS.Do env ID st G txt pConv =
          some ⟨true, some G, OpNewS.tearDown st' pc, pc, calls⟩)) := by
  rw [Do_of_goesOn env ID st st' G txt pConv pc hset]
  constructor
  · intro hkeep hcond
    have hper : OpNewS.perMolecule env st' G pc = OpNewS.transform st' G imol pm pc calls := by
      unfold OpNewS.perMolecule
      simp only [hsize, Bool.false_eq_true, if_false, hm, hkeep, hcond, if_true]
    have hinv : st'.inv = false := by
      cases hi : st'.inv with
      | false => rfl
      | true => rw [hi] at hcond; simp at hcond
    have hmt : isMatch = true := by
      cases hmm : isMatch with
      | true => rfl
      | false => rw [hmm, hinv] at hkeep; simp at hkeep
    subst hmt
    obtain ⟨first, others, hpm⟩ := matching_shape env st' G imol pm calls hm
    have hlen : 2 ≤ st'.vec.length := by
      simp only [Bool.and_eq_true, decide_eq_true_eq] at hcond
      exact hcond.1.1.2
    obtain ⟨m', ht⟩ := transform_total st' G imol first others pc calls hlen
    refine ⟨rfl, hinv, ⟨first, others, hpm⟩, hper, m', ?_⟩
    rw [hper, hpm]; exact ht
  · intro hno
    subst hno
    refine ⟨matching_no_match env st' G imol pm calls hm, ?_⟩
    unfold OpNewS.perMolecule
    simp only [hsize, Bool.false_eq_true, if_false, hm]
    cases hi : st'.inv with
    | false => left; simp
    | true => right; simp

/-- C18 on `c1ccccc1 green` with benzene: the colouring is reached with the one
match list `1..6`. -/
theorem C18_transform_is_safe_witness :
    OpNewS.setUp demoEnv "s" Statics.initial "c1ccccc1 green" (some demoConv) =
      some (.goesOn ⟨["c1ccccc1", "green"], false, 0, []⟩ (some (demoConv.AddOption "s"))) ∧
    OpNewS.matching demoEnv ⟨["c1ccccc1", "green"], false, 0, []⟩ benzene =
      some (.done true 0 (some [[1, 2, 3, 4, 5, 6]])
        [Call.Init "c1ccccc1", Call.Match "c1ccccc1"]) ∧
    ∃ m', OpNewS.Do demoEnv "s" Statics.initial benzene "c1ccccc1 green" (some demoConv) =
      some ⟨true, some m', ⟨["c1ccccc1", "green"], false, 0, []⟩,
        some (demoConv.AddOption "s"), [Call.Init "c1ccccc1", Call.Match "c1ccccc1"]⟩ :=
  ⟨by decide, by decide,
    ((C18_transform_is_safe demoEnv "s" Statics.initial ⟨["c1ccccc1", "green"], false, 0, []⟩
      benzene "c1ccccc1 green" (some demoConv) (some (demoConv.AddOption "s")) true 0
      (some [[1, 2, 3, 4, 5, 6]]) [Call.Init "c1ccccc1", Call.Match "c1ccccc1"]
      (by decide) (by decide) (by decide)).1 (by decide) (by decide)).2.2.2.2⟩

/-- The atom count that the set-up block stores on a first call: 0 when field 1
is not `exact`; with field 1 `exact` and queries made from a file, the count
left by `MakeQueriesFromMolInFile`. -/
theorem setUp_first_count (env : Env) (ID : String) (st : Statics) (txt : String)
    (conv : OBConversion) (f0 : String) (rest : List String)
    (htok : tokenize txt = f0 :: rest) :
    (rest.head? ≠ some "exact" →
      OpNewS.setUp env ID st txt (some conv) =
        some (.goesOn ⟨stripTilde f0 :: rest,
          (if f0.toList.head? == some '~' then true else ID.toList.head? == some 'v'), 0,
          (MakeQueriesFromMolInFile env st.queries (stripTilde f0) st.nPatternAtoms).2.1⟩
          (some (conv.AddOption ID)))) ∧
    (rest.head? = some "exact" →
      (MakeQueriesFromMolInFile env st.queries (stripTilde f0) st.nPatternAtoms).2.1 ≠ [] →
      OpNewS.setUp env ID st txt (some conv) =
        some (.goesOn ⟨stripTilde f0 :: rest,
          (if f0.toList.head? == some '~' then true else ID.toList.head? == some 'v'),
          (MakeQueriesFromMolInFile env st.queries (stripTilde f0) st.nPatternAtoms).2.2,
          (MakeQueriesFromMolInFile env st.queries (stripTilde f0) st.nPatternAtoms).2.1⟩
          (some (conv.AddOption ID)))) := by
  have hne := tokenize_ne_nil_text txt f0 rest htok
  unfold OpNewS.setUp
  simp only [hne, Bool.false_eq_true, if_false, htok]
  unfold stripTilde
  generalize (if (f0.toList.head? == some '~') = true then String.mk (f0.toList.drop 1)
    else f0) = vec0
  generalize (if (f0.toList.head? == some '~') = true then true
    else ID.toList.head? == some 'v') = inv
  constructor
  · intro hx
    have hcond : (decide ((vec0 :: rest).length > 1) && (vec0 :: rest)[1]? == some "exact") =
        false := by
      cases rest with
      | nil => rfl
      | cons r rs =>
        have hr : r ≠ "exact" := by
          intro h; apply hx; rw [h]; rfl
        simp [hr]
    simp only [hcond, Bool.false_eq_true, if_false]
  · intro hx hq
    have hcond : (decide ((vec0 :: rest).length > 1) && (vec0 :: rest)[1]? == some "exact") =
        true := by
      cases rest with
      | nil => exact absurd hx (by simp)
      | cons r rs =>
        have hr : r = "exact" := by simpa using hx
        simp [hr]
    have hqe : (MakeQueriesFromMolInFile env st.queries vec0 st.nPatternAtoms).2.1.isEmpty =
        false := by
      cases hqs : (MakeQueriesFromMolInFile env st.queries vec0 st.nPatternAtoms).2.1 with
      | nil => exact absurd hqs hq
      | cons a as => rfl
    simp only [hcond, if_true, hqe, Bool.false_eq_true, if_false]

/-- C19, refuted as stated: with the file `sizes.sdf` (benzene, then molecular
hydrogen) and field 1 `exact`, the stored count is the one of the last
molecule, 0; benzene as graph has the heavy-atom count of the first
alternative and not of the last, and it is not dropped: `Do` returns `true`. -/
theorem C19_counterexample :
    ∃ r, OpNewS.Do demoEnv "s" Statics.initial benzene "sizes.sdf exact" (some demoConv) = some r ∧
      r.statics.vec = ["sizes.sdf", "exact"] ∧
      r.statics.queries = [⟨benzene⟩, ⟨dihydrogen⟩] ∧
      r.statics.nPatternAtoms = dihydrogen.NumHvyAtoms ∧
      benzene.NumHvyAtoms = (⟨benzene⟩ : OBQuery).pattern.NumHvyAtoms ∧
      benzene.NumHvyAtoms ≠ dihydrogen.NumHvyAtoms ∧
      demoEnv.MapUnique ⟨benzene⟩ benzene ≠ [] ∧
      r.ret = true ∧ r.pmol ≠ none :=
  ⟨⟨true, some (OpNewS.colorLoop "exact" [[1, 2, 3, 4, 5, 6]] benzene),
      ⟨["sizes.sdf", "exact"], false, 0, [⟨benzene⟩, ⟨dihydrogen⟩]⟩,
      some (demoConv.AddOption "s"), [Call.MapUnique 0]⟩,
    by decide, rfl, rfl, by decide, by decide, by decide, by decide, rfl, by simp⟩

/-- C19, amended: on a first call whose field 0 (after a leading `~`) names a
file that is read, with first molecule `m` and further molecules `ms`: when
field 1 is `exact` the set-up stores the heavy-atom count of the last
molecule of the file and the queries of all molecules, and then, if that
count is not 0, every graph with another heavy-atom count is rejected by the
size test, whatever the mapper would find for any alternative; when field 1
is not `exact` the stored count is 0. -/
theorem C19_count_of_last_molecule (env : Env) (ID : String) (st : Statics) (txt : String)
    (conv : OBConversion) (f0 : String) (rest : List String) (m : OBMol) (ms : List OBMol)
    (G : OBMol)
    (htok : tokenize txt = f0 :: rest)
    (hname : (stripTilde f0).toList ≠ [] ∧ '.' ∈ (stripTilde f0).toList)
    (hread : env.readFile (stripTilde f0) = some (m, ms))
    (hatoms : m.NumAtoms ≠ 0) :
    (rest.head? = some "exact" →
      ∃ st' pc, OpNewS.setUp env ID st txt (some conv) = some (.goesOn st' pc) ∧
        st'.nPatternAtoms = ((m :: ms).getLast (List.cons_ne_nil m ms)).NumHvyAtoms ∧
        st'.queries = st.queries ++ (m :: ms).map CompileMoleculeQuery ∧
        (st'.nPatternAtoms ≠ 0 → G.NumHvyAtoms ≠ st'.nPatternAtoms →
          OpNewS.Do env ID st G txt (some conv) = some ⟨false, some G, st', pc, []⟩)) ∧
    (rest.head? ≠ some "exact" →
      ∃ st' pc, OpNewS.setUp env ID st txt (some conv) = some (.goesOn st' pc) ∧
        st'.nPatternAtoms = 0 ∧
        st'.queries = st.queries ++ (m :: ms).map CompileMoleculeQuery) := by
  have hmade : MakeQueriesFromMolInFile env st.queries (stripTilde f0) st.nPatternAtoms =
      (true, st.queries ++ (m :: ms).map CompileMoleculeQuery,
        ((m :: ms).getLast (List.cons_ne_nil m ms)).NumHvyAtoms) := by
    rcases makeQueries_cases env st.queries (stripTilde f0) st.nPatternAtoms with
      h | ⟨m', ms', hread', _, _, _, h⟩
    · exfalso
      unfold MakeQueriesFromMolInFile at h
      have hn : ((stripTilde f0).toList.isEmpty ||
          !((stripTilde f0).toList.contains '.')) = false := by
        have h1 : (stripTilde f0).toList.isEmpty = false := by
          cases hl : (stripTilde f0).toList with
          | nil => exact absurd hl hname.1
          | cons a as => rfl
        have h2 : (stripTilde f0).toList.contains '.' = true := by
          simpa using hname.2
        rw [h1, h2]; rfl
      have h0 : (m.NumAtoms == 0) = false := by simpa using hatoms
      simp only [hn, Bool.false_eq_true, if_false, hread, h0, Prod.mk.injEq] at h
      exact absurd h.1 (by decide)
    · rw [hread] at hread'
      cases hread'
      exact h
  obtain ⟨hnot, hex⟩ := setUp_first_count env ID st txt conv f0 rest htok
  rw [hmade] at hnot hex
  constructor
  · intro hx
    have hs := hex hx (by simp)
    refine ⟨_, _, hs, rfl, rfl, ?_⟩
    intro hn hG
    unfold OpNewS.Do
    rw [hs]
    unfold OpNewS.perMolecule
    have hg : (((m :: ms).getLast (List.cons_ne_nil m ms)).NumHvyAtoms != 0 &&
        G.NumHvyAtoms != ((m :: ms).getLast (List.cons_ne_nil m ms)).NumHvyAtoms) = true := by
      simp only [Bool.and_eq_true, bne_iff_ne, ne_eq]
      exact ⟨hn, hG⟩
    simp only [hg, if_true]
  · intro hx
    exact ⟨_, _, hnot hx, rfl, rfl⟩

/-- C19 amended, on `two.sdf exact` (benzene, then ethanol) with benzene as
graph: the stored count is 3, the one of ethanol, and benzene is rejected
although the first alternative has a mapping on it. -/
theorem C19_count_of_last_molecule_witness :
    tokenize "two.sdf exact" = ["two.sdf", "exact"] ∧
    demoEnv.readFile (stripTilde "two.sdf") = some (benzene, [ethanol]) ∧
    demoEnv.MapUnique ⟨benzene⟩ benzene ≠ [] ∧
    OpNewS.Do demoEnv "s" Statics.initial benzene "two.sdf exact" (some demoConv) =
      some ⟨false, some benzene, ⟨["two.sdf", "exact"], false, 3, [⟨benzene⟩, ⟨ethanol⟩]⟩,
        some (demoConv.AddOption "s"), []⟩ := by
  obtain ⟨st', pc, h1, h2, h3, h4⟩ :=
    (C19_count_of_last_molecule demoEnv "s" Statics.initial "two.sdf exact" demoConv "two.sdf"
      ["exact"] benzene [ethanol] benzene (by decide) (by decide) (by decide) (by decide)).1 rfl
  have hs : OpNewS.setUp demoEnv "s" Statics.initial "two.sdf exact" (some demoConv) =
      some (.goesOn ⟨["two.sdf", "exact"], false, 3, [⟨benzene⟩, ⟨ethanol⟩]⟩
        (some (demoConv.AddOption "s"))) := by decide
  rw [hs] at h1
  cases h1
  exact ⟨by decide, by decide, by decide, h4 (by decide) (by decide)⟩

end OpenBabel
